import Mathlib

set_option maxRecDepth 8000

/-!
Verification of the CSB binary codec (`csb_util/csb.py`).

The embedding models the byte stream as a `List Nat` of byte values and the
file cursor as an explicit position.  Python's `struct.pack`/`unpack` become
`packI`/`packQ`/`unpackI`/`unpackQ` (fallible on overflow / short reads, as
`struct` raises), Python dicts become association lists with overwrite
semantics (`dictInsert` / `dictGet?`), and an uncaught Python exception
(`KeyError`, `struct.error`, `IndexError`) is the `Res.crash` outcome, as
distinct from the tagged `(None, ReadError)` returns, which are `Res.fail`.
Field text is modelled by its UTF-8 byte content (`Field := List Nat`).
-/

namespace Csb

/-- A field's text, as its UTF-8 byte content. -/
abbrev Field := List Nat

/-- A row of a table: an ordered list of fields. -/
abbrev Row := List Field

/-- A table: an ordered list of rows. -/
abbrev Table := List Row

/-- The byte order selected by the header marker: `"<"` or `">"` in the source. -/
inductive ByteOrder where
  | le : ByteOrder
  | be : ByteOrder
deriving DecidableEq, Repr

/-- The `ReadError` enum of the source (`SUCCESS` is represented by `Res.ok`). -/
inductive ReadError where
  | INVALID_CSB_MAGIC
  | INVALID_BYTE_ORDER
  | INVALID_STRP_MAGIC
  | INVALID_LNP_MAGIC
  | INVALID_LNT_MAGIC
  | INCONSISTENT_TOTAL_LINES
  | INCONSISTENT_MAX_COLUMNS
  | INCONSISTENT_TOTAL_FIELDS
deriving DecidableEq, Repr

/-- Outcome of a reader: a value, a tagged `(None, err)` return, or an
uncaught Python exception (`crash`). -/
inductive Res (α : Type) where
  | crash : Res α
  | fail : ReadError → Res α
  | ok : α → Res α
deriving DecidableEq, Repr

/-- Little-endian byte list of `n`, `w` bytes wide. -/
def natToBytesLE : Nat → Nat → List Nat
  | 0, _ => []
  | w + 1, n => n % 256 :: natToBytesLE w (n / 256)

/-- Value of a little-endian byte list. -/
def bytesToNatLE : List Nat → Nat
  | [] => 0
  | b :: bs => b + 256 * bytesToNatLE bs

/-- Orient a little-endian byte list for the chosen byte order. -/
def orient : ByteOrder → List Nat → List Nat
  | .le, l => l
  | .be, l => l.reverse

/-- `struct.pack(f"{byte_order}I", n)`: 4 bytes, or failure on overflow. -/
def packI (bo : ByteOrder) (n : Nat) : Option (List Nat) :=
  if n < 2 ^ 32 then some (orient bo (natToBytesLE 4 n)) else none

/-- `struct.pack(f"{byte_order}Q", n)`: 8 bytes, or failure on overflow. -/
def packQ (bo : ByteOrder) (n : Nat) : Option (List Nat) :=
  if n < 2 ^ 64 then some (orient bo (natToBytesLE 8 n)) else none

/-- `struct.unpack(f"{byte_order}I", b)`: fails unless exactly 4 bytes. -/
def unpackI (bo : ByteOrder) (b : List Nat) : Option Nat :=
  if b.length = 4 then some (bytesToNatLE (orient bo b)) else none

/-- `struct.unpack(f"{byte_order}Q", b)`: fails unless exactly 8 bytes. -/
def unpackQ (bo : ByteOrder) (b : List Nat) : Option Nat :=
  if b.length = 8 then some (bytesToNatLE (orient bo b)) else none

/-- `f.read(k)` at position `pos`: the bytes obtained (possibly fewer than
`k` near end of stream, as in Python) and the new position. -/
def readN (buf : List Nat) (pos k : Nat) : List Nat × Nat :=
  let b := (buf.drop pos).take k
  (b, pos + b.length)

/-- `buf[i : i+k]` as a list. -/
def slice (buf : List Nat) (i k : Nat) : List Nat :=
  (buf.drop i).take k

/-- Python `dict` assignment `d[k] = v` on an association list. -/
def dictInsert {α : Type} : List (Nat × α) → Nat → α → List (Nat × α)
  | [], k, v => [(k, v)]
  | (k', v') :: t, k, v =>
      if k = k' then (k, v) :: t else (k', v') :: dictInsert t k v

/-- Python `dict` lookup `d[k]`, `none` meaning `KeyError`. -/
def dictGet? {α : Type} : List (Nat × α) → Nat → Option α
  | [], _ => none
  | (k', v) :: t, k => if k = k' then some v else dictGet? t k

/-- Lookup in the writer's string→address map (`str_map[val]`). -/
def strLookup : List (Field × Nat) → Field → Option Nat
  | [], _ => none
  | (s, a) :: t, f => if f = s then some a else strLookup t f

/-- Magic `b"CSB "`. -/
def csbMagic : List Nat := [67, 83, 66, 32]

/-- Magic `b"STRP"`. -/
def strpMagic : List Nat := [83, 84, 82, 80]

/-- Magic `b"LNP "`. -/
def lnpMagic : List Nat := [76, 78, 80, 32]

/-- Magic `b"LNT "`. -/
def lntMagic : List Nat := [76, 78, 84, 32]

/-- The six reserved header bytes `b"\x00\x01\xFF\xFF\x00\x00"`. -/
def reservedBytes : List Nat := [0, 1, 255, 255, 0, 0]

/-- The two-byte order marker written by `write_csb`. -/
def orderBytes : ByteOrder → List Nat
  | .le => [255, 254]
  | .be => [254, 255]

/-- `write_c_string`: UTF-8 bytes followed by a single NUL terminator. -/
def write_c_string (s : Field) : List Nat := s ++ [0]

/-- Loop of `read_c_string`: read bytes until a NUL; running past the end of
the stream is Python's `byte[0]` `IndexError`, i.e. a crash (`none`). -/
def read_c_string_go (buf : List Nat) : Nat → Nat → Option (Field × Nat)
  | 0, _ => none
  | fuel + 1, pos =>
      match buf[pos]? with
      | none => none
      | some 0 => some ([], pos + 1)
      | some b =>
          match read_c_string_go buf fuel (pos + 1) with
          | none => none
          | some (bs, p) => some (b :: bs, p)

/-- `read_c_string`: the decoded bytes and the position past the terminator. -/
def read_c_string (buf : List Nat) (pos : Nat) : Option (Field × Nat) :=
  read_c_string_go buf (buf.length + 1 - pos) pos

/-- `get_unique_strs` body: `strs` accumulated by `extend` over the rows. -/
def allStrs (lines : Table) : List Field :=
  lines.foldl (fun acc l => acc ++ l) []

/-- One step of `dict.fromkeys`: keep the value if new, in insertion order. -/
def insertIfNew (acc : List Field) (s : Field) : List Field :=
  if s ∈ acc then acc else acc ++ [s]

/-- `get_unique_strs`: distinct field values in first-occurrence order
(`list(dict.fromkeys(strs))`). -/
def get_unique_strs (lines : Table) : List Field :=
  (allStrs lines).foldl insertIfNew []

/-- The string-pool body built by the loop of `write_strp`: serialized
NUL-terminated strings, plus the `str_map` entries `(string, pos)` where
`pos = f.tell() + str_block.tell() + 4` is the absolute address of the
string's first content byte. -/
def strpBody (pos : Nat) : List Field → List Nat × List (Field × Nat)
  | [] => ([], [])
  | s :: rest =>
      let (b, m) := strpBody (pos + s.length + 1) rest
      (write_c_string s ++ b, (s, pos) :: m)

/-- `write_strp`: the emitted `STRP` block and the string→address map.
`pos` is the absolute stream position at which the block starts; the first
string's content byte lands at `pos + 16` (magic 4 + length 4 + count 8). -/
def write_strp (bo : ByteOrder) (lines : Table) (pos : Nat) :
    Option (List Nat × List (Field × Nat)) := do
  let cntB ← packQ bo (get_unique_strs lines).length
  let (body, m) := strpBody (pos + 16) (get_unique_strs lines)
  let lenB ← packI bo (8 + body.length + 8)
  some (strpMagic ++ lenB ++ cntB ++ body, m)

/-- Addresses written per field of one row: `str_map[val]` then packed. -/
def fieldsBytes (bo : ByteOrder) (sm : List (Field × Nat)) :
    List Field → Option (List Nat)
  | [] => some []
  | f :: t => do
      let a ← strLookup sm f
      let ab ← packQ bo a
      let tb ← fieldsBytes bo sm t
      some (ab ++ tb)

/-- The per-row loop of `write_lnp`.  `pos` is the absolute address of the
current record's field-count field (`start_pos` in the source); the stored
payload address is `pos + 16` and `line_map` collects each `pos`. -/
def lnpBody (bo : ByteOrder) (sm : List (Field × Nat)) (pos : Nat) :
    Table → Option (List Nat × List Nat)
  | [] => some ([], [])
  | line :: rest => do
      let cntB ← packQ bo line.length
      let addrB ← packQ bo (pos + 16)
      let fb ← fieldsBytes bo sm line
      let (tb, tm) ← lnpBody bo sm (pos + 16 + 8 * line.length) rest
      some (cntB ++ addrB ++ fb ++ tb, pos :: tm)

/-- `write_lnp`: the emitted `LNP ` block and the `line_map` of record start
addresses.  `pos` is the absolute position at which the block starts; the
first record starts at `pos + 16`. -/
def write_lnp (bo : ByteOrder) (lines : Table) (sm : List (Field × Nat))
    (pos : Nat) : Option (List Nat × List Nat) := do
  let cntB ← packQ bo lines.length
  let (body, lm) ← lnpBody bo sm (pos + 16) lines
  let lenB ← packI bo (8 + body.length + 8)
  some (lnpMagic ++ lenB ++ cntB ++ body, lm)

/-- Packed line-record addresses written by the loop of `write_lnt`. -/
def addrsBytes (bo : ByteOrder) : List Nat → Option (List Nat)
  | [] => some []
  | a :: t => do
      let ab ← packQ bo a
      let tb ← addrsBytes bo t
      some (ab ++ tb)

/-- `write_lnt`: the emitted `LNT ` block. -/
def write_lnt (bo : ByteOrder) (lines : Table) (lm : List Nat) :
    Option (List Nat) := do
  let cntB ← packQ bo lines.length
  let ab ← addrsBytes bo lm
  let lenB ← packI bo (8 + ab.length + 8)
  some (lntMagic ++ lenB ++ cntB ++ ab)

/-- The header-count loop of `write_csb`: running `(total_fields,
max_columns)` over the rows. -/
def countsOf (lines : Table) : Nat × Nat :=
  lines.foldl (fun acc line => (acc.1 + line.length, max line.length acc.2)) (0, 0)

/-- `write_csb`: the full encoded stream (`none` models a raised
`struct.error`/`KeyError` during encoding). -/
def write_csb (lines : Table) (bo : ByteOrder) : Option (List Nat) := do
  let tf := (countsOf lines).1
  let mc := (countsOf lines).2
  let tfB ← packI bo tf
  let mcB ← packI bo mc
  let tlB ← packI bo lines.length
  let hdr := csbMagic ++ orderBytes bo ++ reservedBytes ++ tfB ++ mcB ++ tlB
  let (b1, sm) ← write_strp bo lines 24
  let (b2, lm) ← write_lnp bo lines sm (24 + b1.length)
  let b3 ← write_lnt bo lines lm
  some (hdr ++ (b1 ++ (b2 ++ b3)))

/-- The string-reading loop of `read_strp`: `str_count` iterations of
`pos = f.tell(); strings[pos] = read_c_string(f)`. -/
def strpLoop (buf : List Nat) : Nat → Nat → List (Nat × Field) →
    Option (List (Nat × Field) × Nat)
  | 0, pos, d => some (d, pos)
  | n + 1, pos, d =>
      match read_c_string buf pos with
      | none => none
      | some (s, p') => strpLoop buf n p' (dictInsert d pos s)

/-- `read_strp`: the address→string map and the position after the trailing
`f.seek(end_pos)`. -/
def read_strp (bo : ByteOrder) (buf : List Nat) (pos : Nat) :
    Res (List (Nat × Field) × Nat) :=
  let (magic, p1) := readN buf pos 4
  if magic = strpMagic then
    let (lb, p2) := readN buf p1 4
    match unpackI bo lb with
    | none => .crash
    | some blockLength =>
      let (cb, p3) := readN buf p2 8
      match unpackQ bo cb with
      | none => .crash
      | some cnt =>
        match strpLoop buf cnt p3 [] with
        | none => .crash
        | some (d, _) => .ok (d, pos + blockLength)
  else .fail .INVALID_STRP_MAGIC

/-- The per-field loop of `read_lnp`: read a pool address and resolve it via
`str_map[str_pos]` (a missing key is Python's `KeyError`, i.e. `none`). -/
def readFields (buf : List Nat) (bo : ByteOrder) (strDict : List (Nat × Field)) :
    Nat → Nat → Option (Row × Nat)
  | 0, pos => some ([], pos)
  | n + 1, pos =>
      let (ab, p1) := readN buf pos 8
      match unpackQ bo ab with
      | none => none
      | some a =>
          match dictGet? strDict a with
          | none => none
          | some s =>
              match readFields buf bo strDict n p1 with
              | none => none
              | some (r, p2) => some (s :: r, p2)

/-- The per-record loop of `read_lnp`: note the `f.seek(line_start_pos)` —
the field addresses are read starting at the record's declared payload
address, and the row is stored under `pos`, the record's own start. -/
def lnpLoop (buf : List Nat) (bo : ByteOrder) (strDict : List (Nat × Field)) :
    Nat → Nat → List (Nat × Row) → Option (List (Nat × Row) × Nat)
  | 0, pos, d => some (d, pos)
  | n + 1, pos, d =>
      let (cb, p1) := readN buf pos 8
      match unpackQ bo cb with
      | none => none
      | some cnt =>
        let (ab, p2) := readN buf p1 8
        match unpackQ bo ab with
        | none => none
        | some addr =>
            match readFields buf bo strDict cnt addr with
            | none => none
            | some (line, p3) => lnpLoop buf bo strDict n p3 (dictInsert d pos line)

/-- `read_lnp`: the address→row map and the position after `f.seek(end_pos)`. -/
def read_lnp (bo : ByteOrder) (buf : List Nat) (pos : Nat)
    (strDict : List (Nat × Field)) : Res (List (Nat × Row) × Nat) :=
  let (magic, p1) := readN buf pos 4
  if magic = lnpMagic then
    let (lb, p2) := readN buf p1 4
    match unpackI bo lb with
    | none => .crash
    | some blockLength =>
      let (cb, p3) := readN buf p2 8
      match unpackQ bo cb with
      | none => .crash
      | some totalLines =>
        match lnpLoop buf bo strDict totalLines p3 [] with
        | none => .crash
        | some (d, _) => .ok (d, pos + blockLength)
  else .fail .INVALID_LNP_MAGIC

/-- The per-row loop of `read_lnt`: resolve each stored record address via
`line_map[line_pos]` (a missing key is Python's `KeyError`). -/
def lntLoop (buf : List Nat) (bo : ByteOrder) (lineDict : List (Nat × Row)) :
    Nat → Nat → Option (Table × Nat)
  | 0, pos => some ([], pos)
  | n + 1, pos =>
      let (ab, p1) := readN buf pos 8
      match unpackQ bo ab with
      | none => none
      | some a =>
          match dictGet? lineDict a with
          | none => none
          | some line =>
              match lntLoop buf bo lineDict n p1 with
              | none => none
              | some (t, p2) => some (line :: t, p2)

/-- `read_lnt`: the rows in original order and the position after
`f.seek(end_pos)`. -/
def read_lnt (bo : ByteOrder) (buf : List Nat) (pos : Nat)
    (lineDict : List (Nat × Row)) : Res (Table × Nat) :=
  let (magic, p1) := readN buf pos 4
  if magic = lntMagic then
    let (lb, p2) := readN buf p1 4
    match unpackI bo lb with
    | none => .crash
    | some blockLength =>
      let (cb, p3) := readN buf p2 8
      match unpackQ bo cb with
      | none => .crash
      | some totalLines =>
        match lntLoop buf bo lineDict totalLines p3 with
        | none => .crash
        | some (t, _) => .ok (t, pos + blockLength)
  else .fail .INVALID_LNT_MAGIC

/-- Decode the order marker bytes as the source's `if`/`elif` does. -/
def byteOrderOf (ob : List Nat) : Option ByteOrder :=
  if ob = [255, 254] then some .le
  else if ob = [254, 255] then some .be
  else none

/-- The three header-count reads of `read_csb` (lines 233–235 of the
source): `total_fields`, `max_columns`, `total_lines`, and the position
after them.  A short read is a `struct.error`, i.e. a crash. -/
def read_counts (bo : ByteOrder) (buf : List Nat) (pos : Nat) :
    Res (Nat × Nat × Nat × Nat) :=
  let (tfB, p4) := readN buf pos 4
  match unpackI bo tfB with
  | none => .crash
  | some totalFields =>
    let (mcB, p5) := readN buf p4 4
    match unpackI bo mcB with
    | none => .crash
    | some maxColumns =>
      let (tlB, p6) := readN buf p5 4
      match unpackI bo tlB with
      | none => .crash
      | some totalLines => .ok (totalFields, maxColumns, totalLines, p6)

/-- The header-parsing prefix of `read_csb` (lines 219–235 of the source):
magic, order marker, six skipped bytes, and the three declared counts;
returns them with the stream position after the header. -/
def read_header (buf : List Nat) : Res (ByteOrder × Nat × Nat × Nat × Nat) :=
  let (magic, p1) := readN buf 0 4
  if magic = csbMagic then
    let (ob, p2) := readN buf p1 2
    match byteOrderOf ob with
    | none => .fail .INVALID_BYTE_ORDER
    | some bo =>
      let (_, p3) := readN buf p2 6
      match read_counts bo buf p3 with
      | .crash => .crash
      | .fail e => .fail e
      | .ok (totalFields, maxColumns, totalLines, p6) =>
          .ok (bo, totalFields, maxColumns, totalLines, p6)
  else .fail .INVALID_CSB_MAGIC

/-- The parsing phase of `read_csb` (everything before the `validate_result`
branch): decoded rows plus the header's declared counts. -/
def parse_csb (buf : List Nat) : Res (Table × Nat × Nat × Nat) :=
  match read_header buf with
  | .crash => .crash
  | .fail e => .fail e
  | .ok (bo, totalFields, maxColumns, totalLines, p6) =>
    match read_strp bo buf p6 with
    | .crash => .crash
    | .fail e => .fail e
    | .ok (strDict, p7) =>
      match read_lnp bo buf p7 strDict with
      | .crash => .crash
      | .fail e => .fail e
      | .ok (lineDict, p8) =>
        match read_lnt bo buf p8 lineDict with
        | .crash => .crash
        | .fail e => .fail e
        | .ok (rows, _) => .ok (rows, totalFields, maxColumns, totalLines)

/-- The counting loop of the validation branch of `read_csb`:
`(counted_fields, counted_columns)` accumulated over the decoded rows. -/
def countedOf (rows : Table) : Nat × Nat :=
  rows.foldl (fun acc line => (acc.1 + line.length, max acc.2 line.length)) (0, 0)

/-- The validation branch of `read_csb` (lines 249–264 of the source): the
three consistency checks in the source's order, `none` when all pass. -/
def validate_result (rows : Table) (totalFields maxColumns totalLines : Nat) :
    Option ReadError :=
  if rows.length ≠ totalLines then some .INCONSISTENT_TOTAL_LINES
  else if (countedOf rows).1 ≠ totalFields then some .INCONSISTENT_TOTAL_FIELDS
  else if (countedOf rows).2 ≠ maxColumns then some .INCONSISTENT_MAX_COLUMNS
  else none

/-- `read_csb`: parse, then (optionally) validate; validation never alters
the decoded rows, it only rejects them. -/
def read_csb (buf : List Nat) (validateResult : Bool) : Res Table :=
  match parse_csb buf with
  | .crash => .crash
  | .fail e => .fail e
  | .ok (rows, tf, mc, tl) =>
      if validateResult then
        match validate_result rows tf mc tl with
        | some e => .fail e
        | none => .ok rows
      else .ok rows

/-! ### Derived layout quantities (used to state the claims) -/

/-- Sum of the row lengths of a table. -/
def sumLens (lines : Table) : Nat := (lines.map List.length).sum

/-- Maximum row length of a table (`0` for an empty table). -/
def maxLen (lines : Table) : Nat := (lines.map List.length).foldr max 0

/-- A table is NUL-free when no field's byte content contains a `0` byte. -/
def NulFree (lines : Table) : Prop :=
  ∀ l ∈ lines, ∀ f ∈ l, (0 : Nat) ∉ f

instance (lines : Table) : Decidable (NulFree lines) := by
  unfold NulFree; infer_instance

/-- The successive absolute start addresses of the LineIndex records, the
first record starting at `p`: each record occupies `16 + 8·fields` bytes. -/
def recordStarts (p : Nat) : Table → List Nat
  | [] => []
  | line :: rest => p :: recordStarts (p + 16 + 8 * line.length) rest

/-- Serialized form of a list of pool strings. -/
def cstrConcat (us : List Field) : List Nat :=
  (us.map write_c_string).flatten

/-- First-occurrence deduplication, written as the spec describes it: keep
each value's first occurrence, drop the later ones. -/
def firstDedup : List Field → List Field
  | [] => []
  | x :: xs => x :: (firstDedup xs).filter (fun y => y ≠ x)

/-! ### Packing/unpacking lemmas -/

theorem natToBytesLE_length (w n : Nat) : (natToBytesLE w n).length = w := by
  induction w generalizing n with
  | zero => rfl
  | succ w ih => simp [natToBytesLE, ih]

theorem bytesToNatLE_natToBytesLE (w n : Nat) (h : n < 256 ^ w) :
    bytesToNatLE (natToBytesLE w n) = n := by
  induction w generalizing n with
  | zero => simp at h; simp [natToBytesLE, bytesToNatLE, h]
  | succ w ih =>
      simp only [natToBytesLE, bytesToNatLE]
      rw [ih (n / 256) (by
        have : 256 ^ (w + 1) = 256 ^ w * 256 := by ring
        rw [this] at h
        exact Nat.div_lt_of_lt_mul (by omega))]
      omega

theorem orient_length (bo : ByteOrder) (l : List Nat) :
    (orient bo l).length = l.length := by
  cases bo <;> simp [orient]

theorem orient_orient (bo : ByteOrder) (l : List Nat) :
    orient bo (orient bo l) = l := by
  cases bo <;> simp [orient]

theorem packI_length {bo : ByteOrder} {n : Nat} {b : List Nat}
    (h : packI bo n = some b) : b.length = 4 := by
  unfold packI at h
  split at h
  · cases h; rw [orient_length, natToBytesLE_length]
  · exact absurd h (by simp)

theorem packQ_length {bo : ByteOrder} {n : Nat} {b : List Nat}
    (h : packQ bo n = some b) : b.length = 8 := by
  unfold packQ at h
  split at h
  · cases h; rw [orient_length, natToBytesLE_length]
  · exact absurd h (by simp)

theorem unpackI_packI {bo : ByteOrder} {n : Nat} {b : List Nat}
    (h : packI bo n = some b) : unpackI bo b = some n := by
  unfold packI at h
  split at h
  case isTrue hlt =>
    cases h
    unfold unpackI
    rw [orient_length, natToBytesLE_length, if_pos rfl, orient_orient]
    rw [bytesToNatLE_natToBytesLE 4 n (by norm_num at hlt ⊢; omega)]
  case isFalse => exact absurd h (by simp)

theorem unpackQ_packQ {bo : ByteOrder} {n : Nat} {b : List Nat}
    (h : packQ bo n = some b) : unpackQ bo b = some n := by
  unfold packQ at h
  split at h
  case isTrue hlt =>
    cases h
    unfold unpackQ
    rw [orient_length, natToBytesLE_length, if_pos rfl, orient_orient]
    rw [bytesToNatLE_natToBytesLE 8 n (by norm_num at hlt ⊢; omega)]
  case isFalse => exact absurd h (by simp)

/-! ### Stream-view lemmas -/

theorem readN_eq {buf chunk rest : List Nat} {pos k : Nat}
    (hd : buf.drop pos = chunk ++ rest) (hk : chunk.length = k) :
    readN buf pos k = (chunk, pos + k) := by
  unfold readN
  rw [hd, ← hk, List.take_left]

theorem drop_shift {buf chunk rest : List Nat} {pos : Nat}
    (hd : buf.drop pos = chunk ++ rest) :
    buf.drop (pos + chunk.length) = rest := by
  rw [← List.drop_drop, hd, List.drop_left]

theorem drop_shift_k {buf chunk rest : List Nat} {pos k : Nat}
    (hd : buf.drop pos = chunk ++ rest) (hk : chunk.length = k) :
    buf.drop (pos + k) = rest :=
  hk ▸ drop_shift hd

theorem slice_eq {buf chunk rest : List Nat} {pos k : Nat}
    (hd : buf.drop pos = chunk ++ rest) (hk : chunk.length = k) :
    slice buf pos k = chunk := by
  unfold slice
  rw [hd, ← hk, List.take_left]

/-! ### Dict lemmas -/

theorem dictInsert_eq_append {α : Type} {d : List (Nat × α)} {k : Nat} {v : α}
    (h : dictGet? d k = none) : dictInsert d k v = d ++ [(k, v)] := by
  induction d with
  | nil => rfl
  | cons hd t ih =>
      obtain ⟨k', v'⟩ := hd
      unfold dictGet? at h
      unfold dictInsert
      split at h
      · exact absurd h (by simp)
      · next hne => rw [if_neg hne, ih h]; rfl

theorem dictGet?_append {α : Type} (d₁ d₂ : List (Nat × α)) (k : Nat) :
    dictGet? (d₁ ++ d₂) k =
      match dictGet? d₁ k with
      | some v => some v
      | none => dictGet? d₂ k := by
  induction d₁ with
  | nil => simp [dictGet?]
  | cons hd t ih =>
      obtain ⟨k', v'⟩ := hd
      by_cases hk : k = k'
      · simp [dictGet?, hk]
      · simp [dictGet?, hk, ih]

theorem dictGet?_not_mem {α : Type} {d : List (Nat × α)} {k : Nat}
    (h : ∀ p ∈ d, k ≠ p.1) : dictGet? d k = none := by
  induction d with
  | nil => rfl
  | cons hd t ih =>
      unfold dictGet?
      rw [if_neg (h hd (by simp))]
      exact ih fun p hp => h p (by simp [hp])

/-! ### `read_c_string` on serialized strings -/

theorem read_c_string_go_spec {buf rest : List Nat} {cs : Field} {pos : Nat}
    (fuel : Nat) (hnul : (0 : Nat) ∉ cs) (hd : buf.drop pos = cs ++ 0 :: rest)
    (hfuel : cs.length + 1 ≤ fuel) :
    read_c_string_go buf fuel pos = some (cs, pos + cs.length + 1) := by
  induction cs generalizing pos fuel with
  | nil =>
      obtain ⟨fuel, rfl⟩ : ∃ f, fuel = f + 1 := ⟨fuel - 1, by omega⟩
      have hget : buf[pos]? = some 0 := by
        have h0 := List.getElem?_drop buf pos 0
        rw [hd] at h0
        simpa using h0.symm
      simp [read_c_string_go, hget]
  | cons c cs ih =>
      obtain ⟨fuel, rfl⟩ : ∃ f, fuel = f + 1 := ⟨fuel - 1, by omega⟩
      have hget : buf[pos]? = some c := by
        have h0 := List.getElem?_drop buf pos 0
        rw [hd] at h0
        simpa using h0.symm
      have hc : c ≠ 0 := fun h => hnul (h ▸ List.mem_cons_self c cs)
      have hd' : buf.drop (pos + 1) = cs ++ 0 :: rest := by
        have hx : buf.drop pos = [c] ++ (cs ++ 0 :: rest) := by simpa using hd
        simpa using drop_shift hx
      have ihr := ih fuel (fun h => hnul (List.mem_cons_of_mem c h)) hd'
        (by simp only [List.length_cons] at hfuel; omega)
      unfold read_c_string_go
      rw [hget]
      simp only []
      cases c with
      | zero => exact absurd rfl hc
      | succ c =>
          simp only [ihr]
          simp only [List.length_cons]
          congr 2
          omega

theorem read_c_string_spec {buf rest : List Nat} {cs : Field} {pos : Nat}
    (hnul : (0 : Nat) ∉ cs) (hd : buf.drop pos = cs ++ 0 :: rest) :
    read_c_string buf pos = some (cs, pos + cs.length + 1) := by
  have hlen : buf.length = pos + (cs.length + 1 + rest.length) ∨ pos ≥ buf.length := by
    by_cases hp : pos ≤ buf.length
    · left
      have := List.length_drop pos buf
      rw [hd] at this
      simp at this
      omega
    · right; omega
  rcases hlen with hlen | hlen
  · unfold read_c_string
    exact read_c_string_go_spec _ hnul hd (by omega)
  · exfalso
    have hnil : buf.drop pos = [] := List.drop_eq_nil_of_le hlen
    rw [hd] at hnil
    simp at hnil

/-! ### StringPool block lemmas -/

/-- Absolute addresses assigned to the pool strings by `write_strp`, the
first string's content starting at `p`. -/
def strpAddrs (p : Nat) : List Field → List Nat
  | [] => []
  | u :: t => p :: strpAddrs (p + u.length + 1) t

theorem strpBody_fst (p : Nat) (us : List Field) :
    (strpBody p us).1 = cstrConcat us := by
  induction us generalizing p with
  | nil => rfl
  | cons u t ih => simp [strpBody, cstrConcat, ih]

theorem strpBody_snd (p : Nat) (us : List Field) :
    (strpBody p us).2 = us.zip (strpAddrs p us) := by
  induction us generalizing p with
  | nil => rfl
  | cons u t ih => simp [strpBody, strpAddrs, ih]

theorem cstrConcat_cons (u : Field) (t : List Field) :
    cstrConcat (u :: t) = (u ++ [0]) ++ cstrConcat t := by
  simp [cstrConcat, write_c_string]

theorem cstrConcat_length_cons (u : Field) (t : List Field) :
    (cstrConcat (u :: t)).length = u.length + 1 + (cstrConcat t).length := by
  simp [cstrConcat_cons]
  omega

theorem strpAddrs_ge {p : Nat} {us : List Field} :
    ∀ a ∈ strpAddrs p us, p ≤ a := by
  induction us generalizing p with
  | nil => intro a ha; simp [strpAddrs] at ha
  | cons u t ih =>
      intro a ha
      simp only [strpAddrs, List.mem_cons] at ha
      rcases ha with rfl | ha
      · exact le_refl a
      · have := ih a ha; omega

theorem strpAddrs_pairwise (p : Nat) (us : List Field) :
    (strpAddrs p us).Pairwise (· < ·) := by
  induction us generalizing p with
  | nil => exact List.Pairwise.nil
  | cons u t ih =>
      refine List.Pairwise.cons ?_ (ih (p + u.length + 1))
      intro a ha
      have := strpAddrs_ge a ha
      omega

theorem strpAddrs_nodup (p : Nat) (us : List Field) :
    (strpAddrs p us).Nodup :=
  (strpAddrs_pairwise p us).imp Nat.ne_of_lt

theorem strpAddrs_length (p : Nat) (us : List Field) :
    (strpAddrs p us).length = us.length := by
  induction us generalizing p with
  | nil => rfl
  | cons u t ih => simp [strpAddrs, ih]

/-- Generic association-list fact: a found binding is a member. -/
theorem strLookup_mem {l : List (Field × Nat)} {f : Field} {a : Nat}
    (h : strLookup l f = some a) : (f, a) ∈ l := by
  induction l with
  | nil => exact absurd h (by simp [strLookup])
  | cons hd t ih =>
      obtain ⟨s, a'⟩ := hd
      unfold strLookup at h
      split at h
      · next he => cases h; simp [he]
      · simp [ih h]

theorem strLookup_total {us : List Field} {as : List Nat} {f : Field}
    (hf : f ∈ us) (hl : as.length = us.length) :
    ∃ a, strLookup (us.zip as) f = some a := by
  induction us generalizing as with
  | nil => simp at hf
  | cons u t ih =>
      cases as with
      | nil => simp at hl
      | cons a at' =>
          by_cases he : f = u
          · exact ⟨a, by simp [strLookup, List.zip_cons_cons, he]⟩
          · rcases List.mem_cons.mp hf with h | h
            · exact absurd h he
            · obtain ⟨b, hb⟩ := ih h (by simpa using hl)
              exact ⟨b, by simpa [strLookup, List.zip_cons_cons, he] using hb⟩

theorem dictGet?_zip_of_mem {α : Type} {as : List Nat} {us : List α}
    {a : Nat} {f : α} (hnd : as.Nodup) (hmem : (a, f) ∈ as.zip us) :
    dictGet? (as.zip us) a = some f := by
  induction as generalizing us with
  | nil => simp at hmem
  | cons a0 t ih =>
      cases us with
      | nil => simp at hmem
      | cons u0 ut =>
          rw [List.zip_cons_cons] at hmem ⊢
          rcases List.mem_cons.mp hmem with he | hm
          · cases he
            simp [dictGet?]
          · have ha : a ∈ t := (List.of_mem_zip hm).1
            have hne : a ≠ a0 := by
              rintro rfl
              exact (List.nodup_cons.mp hnd).1 ha
            simp only [dictGet?, if_neg hne]
            exact ih (List.nodup_cons.mp hnd).2 hm

theorem mem_zip_swap {α β : Type} {l₁ : List α} {l₂ : List β} {a : α} {b : β}
    (h : (a, b) ∈ l₁.zip l₂) : (b, a) ∈ l₂.zip l₁ := by
  induction l₁ generalizing l₂ with
  | nil => simp at h
  | cons x t ih =>
      cases l₂ with
      | nil => simp at h
      | cons y u =>
          rw [List.zip_cons_cons] at h ⊢
          rcases List.mem_cons.mp h with he | hm
          · cases he; simp
          · simp [ih hm]

/-- The string-reading loop of `read_strp` over the serialized pool. -/
theorem strpLoop_spec {us : List Field} {buf rest : List Nat}
    (pos : Nat) (d : List (Nat × Field))
    (hnul : ∀ u ∈ us, (0 : Nat) ∉ u)
    (hd : buf.drop pos = cstrConcat us ++ rest)
    (hkeys : ∀ q ∈ d, q.1 < pos) :
    strpLoop buf us.length pos d =
      some (d ++ (strpAddrs pos us).zip us, pos + (cstrConcat us).length) := by
  induction us generalizing pos d with
  | nil => simp [strpLoop, strpAddrs, cstrConcat]
  | cons u t ih =>
      rw [cstrConcat_cons] at hd
      have hd1 : buf.drop pos = u ++ 0 :: (cstrConcat t ++ rest) := by
        simpa using hd
      have hread := read_c_string_spec (hnul u (by simp)) hd1
      have hd2 : buf.drop (pos + (u.length + 1)) = cstrConcat t ++ rest := by
        have hx : buf.drop pos = (u ++ [0]) ++ (cstrConcat t ++ rest) := by
          simpa using hd1
        have := drop_shift hx
        simpa [Nat.add_assoc] using this
      have hins : dictInsert d pos u = d ++ [(pos, u)] :=
        dictInsert_eq_append (dictGet?_not_mem fun q hq => by
          have := hkeys q hq; omega)
      have ihr := ih (pos + (u.length + 1)) (d ++ [(pos, u)])
        (fun x hx => hnul x (by simp [hx])) hd2
        (fun q hq => by
          rcases List.mem_append.mp hq with hq | hq
          · have := hkeys q hq; omega
          · simp at hq; subst hq; omega)
      show strpLoop buf (t.length + 1) pos d = _
      unfold strpLoop
      rw [hread]
      simp only [hins] at ihr ⊢
      rw [show pos + u.length + 1 = pos + (u.length + 1) by omega, ihr]
      rw [cstrConcat_length_cons]
      simp [strpAddrs, List.zip_cons_cons]
      constructor
      · rw [show pos + (u.length + 1) = pos + u.length + 1 by omega]
      · omega

/-- Decomposition of a successful `write_strp`. -/
theorem write_strp_eq {bo : ByteOrder} {lines : Table} {pos : Nat}
    {blk : List Nat} {m : List (Field × Nat)}
    (hw : write_strp bo lines pos = some (blk, m)) :
    ∃ cntB lenB,
      packQ bo (get_unique_strs lines).length = some cntB ∧
      packI bo (8 + (cstrConcat (get_unique_strs lines)).length + 8) = some lenB ∧
      blk = strpMagic ++ lenB ++ cntB ++ cstrConcat (get_unique_strs lines) ∧
      m = (get_unique_strs lines).zip (strpAddrs (pos + 16) (get_unique_strs lines)) := by
  unfold write_strp at hw
  simp only [Option.bind_eq_bind] at hw
  cases hq : packQ bo (get_unique_strs lines).length with
  | none => rw [hq] at hw; simp at hw
  | some cntB =>
      rw [hq] at hw
      simp only [Option.some_bind] at hw
      rw [show strpBody (pos + 16) (get_unique_strs lines) =
          (cstrConcat (get_unique_strs lines),
            (get_unique_strs lines).zip (strpAddrs (pos + 16) (get_unique_strs lines)))
        from Prod.ext (strpBody_fst _ _) (strpBody_snd _ _)] at hw
      cases hI : packI bo (8 + (cstrConcat (get_unique_strs lines)).length + 8) with
      | none => rw [hI] at hw; simp at hw
      | some lenB =>
          rw [hI] at hw
          simp only [Option.some_bind, Option.some.injEq, Prod.mk.injEq] at hw
          exact ⟨cntB, lenB, rfl, rfl, hw.1.symm, hw.2.symm⟩

/-- Reading back a written StringPool block, whatever follows it: the result
is the swapped address map and the position is exactly the end of the block. -/
theorem read_strp_write {bo : ByteOrder} {lines : Table} {pos : Nat}
    {blk : List Nat} {m : List (Field × Nat)} {buf rest : List Nat}
    (hw : write_strp bo lines pos = some (blk, m))
    (hnul : ∀ u ∈ get_unique_strs lines, (0 : Nat) ∉ u)
    (hd : buf.drop pos = blk ++ rest) :
    read_strp bo buf pos =
      .ok ((strpAddrs (pos + 16) (get_unique_strs lines)).zip (get_unique_strs lines),
        pos + blk.length) := by
  obtain ⟨cntB, lenB, hq, hI, hblk, _⟩ := write_strp_eq hw
  have hcl : cntB.length = 8 := packQ_length hq
  have hll : lenB.length = 4 := packI_length hI
  have hblen : blk.length = 16 + (cstrConcat (get_unique_strs lines)).length := by
    rw [hblk]; simp [strpMagic, hcl, hll]; omega
  subst hblk
  have hd0 : buf.drop pos =
      strpMagic ++ (lenB ++ (cntB ++ (cstrConcat (get_unique_strs lines) ++ rest))) := by
    simpa using hd
  have hd1 := drop_shift_k hd0 (show strpMagic.length = 4 by decide)
  have hd2 := drop_shift_k hd1 hll
  have hd3 := drop_shift_k hd2 hcl
  have hloop := strpLoop_spec (pos + 4 + 4 + 8) [] hnul hd3 (by simp)
  simp only [List.nil_append] at hloop
  simp only [read_strp, readN_eq hd0 (show strpMagic.length = 4 by decide),
    eq_self_iff_true, if_true, readN_eq hd1 hll, unpackI_packI hI,
    readN_eq hd2 hcl, unpackQ_packQ hq, hloop]
  simp only [Res.ok.injEq, Prod.mk.injEq]
  refine ⟨trivial, ?_⟩
  rw [hblen]
  omega

/-! ### LineIndex block lemmas -/

theorem recordStarts_ge {p : Nat} {lines : Table} :
    ∀ r ∈ recordStarts p lines, p ≤ r := by
  induction lines generalizing p with
  | nil => intro r hr; simp [recordStarts] at hr
  | cons l t ih =>
      intro r hr
      simp only [recordStarts, List.mem_cons] at hr
      rcases hr with rfl | hr
      · exact le_refl r
      · have := ih r hr; omega

theorem recordStarts_pairwise (p : Nat) (lines : Table) :
    (recordStarts p lines).Pairwise (· < ·) := by
  induction lines generalizing p with
  | nil => exact List.Pairwise.nil
  | cons l t ih =>
      refine List.Pairwise.cons ?_ (ih _)
      intro r hr
      have := recordStarts_ge r hr
      omega

theorem recordStarts_nodup (p : Nat) (lines : Table) :
    (recordStarts p lines).Nodup :=
  (recordStarts_pairwise p lines).imp Nat.ne_of_lt

theorem recordStarts_length (p : Nat) (lines : Table) :
    (recordStarts p lines).length = lines.length := by
  induction lines generalizing p with
  | nil => rfl
  | cons l t ih => simp [recordStarts, ih]

theorem fieldsBytes_length {bo : ByteOrder} {sm : List (Field × Nat)}
    {line : List Field} {fb : List Nat}
    (hf : fieldsBytes bo sm line = some fb) : fb.length = 8 * line.length := by
  induction line generalizing fb with
  | nil => unfold fieldsBytes at hf; cases hf; rfl
  | cons f t ih =>
      unfold fieldsBytes at hf
      simp only [Option.bind_eq_bind] at hf
      cases ha : strLookup sm f with
      | none => rw [ha] at hf; simp at hf
      | some a =>
          rw [ha] at hf
          simp only [Option.some_bind] at hf
          cases hab : packQ bo a with
          | none => rw [hab] at hf; simp at hf
          | some ab =>
              rw [hab] at hf
              simp only [Option.some_bind] at hf
              cases htb : fieldsBytes bo sm t with
              | none => rw [htb] at hf; simp at hf
              | some tb =>
                  rw [htb] at hf
                  simp only [Option.some_bind, Option.some.injEq] at hf
                  subst hf
                  have := packQ_length hab
                  have := ih htb
                  simp [List.length_append, this]
                  omega

theorem lnpBody_lm {bo : ByteOrder} {sm : List (Field × Nat)} {lines : Table}
    {pos : Nat} {body : List Nat} {lm : List Nat}
    (hb : lnpBody bo sm pos lines = some (body, lm)) :
    lm = recordStarts pos lines := by
  induction lines generalizing pos body lm with
  | nil => unfold lnpBody at hb; cases hb; rfl
  | cons line t ih =>
      unfold lnpBody at hb
      simp only [Option.bind_eq_bind] at hb
      cases h1 : packQ bo line.length with
      | none => rw [h1] at hb; simp at hb
      | some cntB =>
          rw [h1] at hb
          simp only [Option.some_bind] at hb
          cases h2 : packQ bo (pos + 16) with
          | none => rw [h2] at hb; simp at hb
          | some addrB =>
              rw [h2] at hb
              simp only [Option.some_bind] at hb
              cases h3 : fieldsBytes bo sm line with
              | none => rw [h3] at hb; simp at hb
              | some fb =>
                  rw [h3] at hb
                  simp only [Option.some_bind] at hb
                  cases h4 : lnpBody bo sm (pos + 16 + 8 * line.length) t with
                  | none => rw [h4] at hb; simp at hb
                  | some p =>
                      obtain ⟨tb, tm⟩ := p
                      rw [h4] at hb
                      simp only [Option.some_bind, Option.some.injEq,
                        Prod.mk.injEq] at hb
                      rw [recordStarts, ← hb.2, ih h4]

theorem readFields_spec {buf rest : List Nat} {bo : ByteOrder}
    {sm : List (Field × Nat)} {strDict : List (Nat × Field)}
    {line : List Field} {fb : List Nat} {pos : Nat}
    (hf : fieldsBytes bo sm line = some fb)
    (hd : buf.drop pos = fb ++ rest)
    (hres : ∀ f ∈ line, ∀ a, strLookup sm f = some a → dictGet? strDict a = some f) :
    readFields buf bo strDict line.length pos = some (line, pos + fb.length) := by
  induction line generalizing fb pos with
  | nil => unfold fieldsBytes at hf; cases hf; simp [readFields]
  | cons f t ih =>
      unfold fieldsBytes at hf
      simp only [Option.bind_eq_bind] at hf
      cases ha : strLookup sm f with
      | none => rw [ha] at hf; simp at hf
      | some a =>
          rw [ha] at hf
          simp only [Option.some_bind] at hf
          cases hab : packQ bo a with
          | none => rw [hab] at hf; simp at hf
          | some ab =>
              rw [hab] at hf
              simp only [Option.some_bind] at hf
              cases htb : fieldsBytes bo sm t with
              | none => rw [htb] at hf; simp at hf
              | some tb =>
                  rw [htb] at hf
                  simp only [Option.some_bind, Option.some.injEq] at hf
                  subst hf
                  have habl := packQ_length hab
                  have hd0 : buf.drop pos = ab ++ (tb ++ rest) := by simpa using hd
                  have hd1 := drop_shift_k hd0 habl
                  have ihr := ih htb hd1
                    (fun g hg => hres g (List.mem_cons_of_mem f hg))
                  show readFields buf bo strDict (t.length + 1) pos = _
                  simp only [readFields, readN_eq hd0 habl, unpackQ_packQ hab,
                    hres f (by simp) a ha, ihr]
                  simp only [Option.some.injEq, Prod.mk.injEq,
                    eq_self_iff_true, true_and, List.length_append, habl]
                  omega

theorem lnpLoop_spec {buf rest : List Nat} {bo : ByteOrder}
    {sm : List (Field × Nat)} {strDict : List (Nat × Field)}
    {lines : Table} {body : List Nat} {lm : List Nat} (pos : Nat)
    (d : List (Nat × Row))
    (hb : lnpBody bo sm pos lines = some (body, lm))
    (hd : buf.drop pos = body ++ rest)
    (hkeys : ∀ q ∈ d, q.1 < pos)
    (hres : ∀ f ∈ lines.flatten, ∀ a, strLookup sm f = some a →
      dictGet? strDict a = some f) :
    lnpLoop buf bo strDict lines.length pos d =
      some (d ++ lm.zip lines, pos + body.length) := by
  induction lines generalizing pos body lm d with
  | nil =>
      unfold lnpBody at hb
      cases hb
      simp [lnpLoop]
  | cons line t ih =>
      unfold lnpBody at hb
      simp only [Option.bind_eq_bind] at hb
      cases h1 : packQ bo line.length with
      | none => rw [h1] at hb; simp at hb
      | some cntB =>
          rw [h1] at hb
          simp only [Option.some_bind] at hb
          cases h2 : packQ bo (pos + 16) with
          | none => rw [h2] at hb; simp at hb
          | some addrB =>
              rw [h2] at hb
              simp only [Option.some_bind] at hb
              cases h3 : fieldsBytes bo sm line with
              | none => rw [h3] at hb; simp at hb
              | some fb =>
                  rw [h3] at hb
                  simp only [Option.some_bind] at hb
                  cases h4 : lnpBody bo sm (pos + 16 + 8 * line.length) t with
                  | none => rw [h4] at hb; simp at hb
                  | some p =>
                      obtain ⟨tb, tm⟩ := p
                      rw [h4] at hb
                      simp only [Option.some_bind, Option.some.injEq,
                        Prod.mk.injEq] at hb
                      obtain ⟨hbody, hlm⟩ := hb
                      subst hbody
                      have hcl := packQ_length h1
                      have hal := packQ_length h2
                      have hfl := fieldsBytes_length h3
                      have hd0 : buf.drop pos =
                          cntB ++ (addrB ++ (fb ++ (tb ++ rest))) := by
                        simpa using hd
                      have hd1 := drop_shift_k hd0 hcl
                      have hd2 := drop_shift_k hd1 hal
                      have hd2' : buf.drop (pos + 16) = fb ++ (tb ++ rest) := by
                        rw [show pos + 16 = pos + 8 + 8 by omega]; exact hd2
                      have hfields := readFields_spec h3 hd2'
                        (fun f hf => hres f (by simp [hf]))
                      have hins : dictInsert d pos line = d ++ [(pos, line)] :=
                        dictInsert_eq_append (dictGet?_not_mem fun q hq => by
                          have := hkeys q hq; omega)
                      have hd3 : buf.drop (pos + 16 + 8 * line.length) =
                          tb ++ rest := by
                        have h5 := drop_shift_k hd2' hfl
                        convert h5 using 2
                      have ihr := ih (pos + 16 + 8 * line.length)
                        (d ++ [(pos, line)]) h4 hd3
                        (fun q hq => by
                          rcases List.mem_append.mp hq with hq | hq
                          · have := hkeys q hq; omega
                          · simp only [List.mem_singleton] at hq
                            subst hq
                            show pos < pos + 16 + 8 * line.length
                            omega)
                        (fun f hf a ha => hres f (by simp [hf]) a ha)
                      show lnpLoop buf bo strDict (t.length + 1) pos d = _
                      simp only [lnpLoop, readN_eq hd0 hcl, unpackQ_packQ h1,
                        readN_eq hd1 hal, unpackQ_packQ h2, hfields,
                        show pos + 16 + fb.length = pos + 16 + 8 * line.length
                          from by omega,
                        hins, ihr]
                      simp only [Option.some.injEq, Prod.mk.injEq]
                      constructor
                      · rw [← hlm]
                        simp [List.zip_cons_cons]
                      · simp [List.length_append, hcl, hal, hfl]
                        omega

/-- Decomposition of a successful `write_lnp`. -/
theorem write_lnp_eq {bo : ByteOrder} {lines : Table} {sm : List (Field × Nat)}
    {pos : Nat} {blk : List Nat} {lm : List Nat}
    (hw : write_lnp bo lines sm pos = some (blk, lm)) :
    ∃ cntB body lenB,
      packQ bo lines.length = some cntB ∧
      lnpBody bo sm (pos + 16) lines = some (body, lm) ∧
      packI bo (8 + body.length + 8) = some lenB ∧
      blk = lnpMagic ++ lenB ++ cntB ++ body := by
  unfold write_lnp at hw
  simp only [Option.bind_eq_bind] at hw
  cases h1 : packQ bo lines.length with
  | none => rw [h1] at hw; simp at hw
  | some cntB =>
      rw [h1] at hw
      simp only [Option.some_bind] at hw
      cases h2 : lnpBody bo sm (pos + 16) lines with
      | none => rw [h2] at hw; simp at hw
      | some p =>
          obtain ⟨body, lm'⟩ := p
          rw [h2] at hw
          simp only [Option.some_bind] at hw
          cases h3 : packI bo (8 + body.length + 8) with
          | none => rw [h3] at hw; simp at hw
          | some lenB =>
              rw [h3] at hw
              simp only [Option.some_bind, Option.some.injEq,
                Prod.mk.injEq] at hw
              obtain ⟨hblk, hlm⟩ := hw
              subst hlm
              exact ⟨cntB, body, lenB, rfl, rfl, h3, hblk.symm⟩

/-- Reading back a written LineIndex block, whatever follows it: the rows
come back keyed by the writer's `line_map` addresses, i.e. by the records'
own start offsets, and the position is exactly the end of the block. -/
theorem read_lnp_write {bo : ByteOrder} {lines : Table} {sm : List (Field × Nat)}
    {strDict : List (Nat × Field)} {pos : Nat} {blk : List Nat} {lm : List Nat}
    {buf rest : List Nat}
    (hw : write_lnp bo lines sm pos = some (blk, lm))
    (hd : buf.drop pos = blk ++ rest)
    (hres : ∀ f ∈ lines.flatten, ∀ a, strLookup sm f = some a →
      dictGet? strDict a = some f) :
    read_lnp bo buf pos strDict = .ok (lm.zip lines, pos + blk.length) := by
  obtain ⟨cntB, body, lenB, h1, h2, h3, hblk⟩ := write_lnp_eq hw
  have hcl := packQ_length h1
  have hll := packI_length h3
  have hblen : blk.length = 16 + body.length := by
    rw [hblk]; simp [lnpMagic, hcl, hll]; omega
  subst hblk
  have hd0 : buf.drop pos = lnpMagic ++ (lenB ++ (cntB ++ (body ++ rest))) := by
    simpa using hd
  have hd1 := drop_shift_k hd0 (show lnpMagic.length = 4 by decide)
  have hd2 := drop_shift_k hd1 hll
  have hd3 := drop_shift_k hd2 hcl
  have hd3' : buf.drop (pos + 16) = body ++ rest := by
    rw [show pos + 16 = pos + 4 + 4 + 8 by omega]; exact hd3
  have hloop := lnpLoop_spec (pos + 16) [] h2 hd3' (by simp) hres
  simp only [List.nil_append] at hloop
  simp only [read_lnp, readN_eq hd0 (show lnpMagic.length = 4 by decide),
    eq_self_iff_true, if_true, readN_eq hd1 hll, unpackI_packI h3,
    readN_eq hd2 hcl, unpackQ_packQ h1]
  rw [show pos + 4 + 4 + 8 = pos + 16 by omega, hloop]
  simp only [Res.ok.injEq, Prod.mk.injEq]
  refine ⟨trivial, ?_⟩
  rw [hblen]
  omega

/-! ### LineOrder block lemmas -/

theorem lntLoop_spec {buf rest ab : List Nat} {bo : ByteOrder}
    {lineDict : List (Nat × Row)} {lm : List Nat} {rows : Table} {pos : Nat}
    (ha : addrsBytes bo lm = some ab)
    (hd : buf.drop pos = ab ++ rest)
    (hlen : lm.length = rows.length)
    (hres : ∀ p ∈ lm.zip rows, dictGet? lineDict p.1 = some p.2) :
    lntLoop buf bo lineDict lm.length pos = some (rows, pos + ab.length) := by
  induction lm generalizing rows ab pos with
  | nil =>
      unfold addrsBytes at ha
      cases ha
      cases rows with
      | nil => simp [lntLoop]
      | cons r t => simp at hlen
  | cons a t ih =>
      cases rows with
      | nil => simp at hlen
      | cons row rt =>
          unfold addrsBytes at ha
          simp only [Option.bind_eq_bind] at ha
          cases h1 : packQ bo a with
          | none => rw [h1] at ha; simp at ha
          | some ab1 =>
              rw [h1] at ha
              simp only [Option.some_bind] at ha
              cases h2 : addrsBytes bo t with
              | none => rw [h2] at ha; simp at ha
              | some tb =>
                  rw [h2] at ha
                  simp only [Option.some_bind, Option.some.injEq] at ha
                  subst ha
                  have h1l := packQ_length h1
                  have hd0 : buf.drop pos = ab1 ++ (tb ++ rest) := by simpa using hd
                  have hd1 := drop_shift_k hd0 h1l
                  have ihr := ih h2 hd1 (by simpa using hlen)
                    (fun p hp => hres p (by simp [List.zip_cons_cons, hp]))
                  have hget : dictGet? lineDict a = some row :=
                    hres (a, row) (by simp [List.zip_cons_cons])
                  show lntLoop buf bo lineDict (t.length + 1) pos = _
                  simp only [lntLoop, readN_eq hd0 h1l, unpackQ_packQ h1,
                    hget, ihr]
                  simp only [Option.some.injEq, Prod.mk.injEq,
                    eq_self_iff_true, true_and, List.length_append, h1l]
                  omega

/-- Decomposition of a successful `write_lnt`. -/
theorem write_lnt_eq {bo : ByteOrder} {lines : Table} {lm : List Nat}
    {blk : List Nat}
    (hw : write_lnt bo lines lm = some blk) :
    ∃ cntB ab lenB,
      packQ bo lines.length = some cntB ∧
      addrsBytes bo lm = some ab ∧
      packI bo (8 + ab.length + 8) = some lenB ∧
      blk = lntMagic ++ lenB ++ cntB ++ ab := by
  unfold write_lnt at hw
  simp only [Option.bind_eq_bind] at hw
  cases h1 : packQ bo lines.length with
  | none => rw [h1] at hw; simp at hw
  | some cntB =>
      rw [h1] at hw
      simp only [Option.some_bind] at hw
      cases h2 : addrsBytes bo lm with
      | none => rw [h2] at hw; simp at hw
      | some ab =>
          rw [h2] at hw
          simp only [Option.some_bind] at hw
          cases h3 : packI bo (8 + ab.length + 8) with
          | none => rw [h3] at hw; simp at hw
          | some lenB =>
              rw [h3] at hw
              simp only [Option.some_bind, Option.some.injEq] at hw
              exact ⟨cntB, ab, lenB, rfl, rfl, h3, hw.symm⟩

/-- Reading back a written LineOrder block, whatever follows it. -/
theorem read_lnt_write {bo : ByteOrder} {lines : Table} {lm : List Nat}
    {blk : List Nat} {buf rest : List Nat} {pos : Nat}
    {lineDict : List (Nat × Row)}
    (hw : write_lnt bo lines lm = some blk)
    (hd : buf.drop pos = blk ++ rest)
    (hlen : lm.length = lines.length)
    (hres : ∀ p ∈ lm.zip lines, dictGet? lineDict p.1 = some p.2) :
    read_lnt bo buf pos lineDict = .ok (lines, pos + blk.length) := by
  obtain ⟨cntB, ab, lenB, h1, h2, h3, hblk⟩ := write_lnt_eq hw
  have hcl := packQ_length h1
  have hll := packI_length h3
  have hblen : blk.length = 16 + ab.length := by
    rw [hblk]; simp [lntMagic, hcl, hll]; omega
  subst hblk
  have hd0 : buf.drop pos = lntMagic ++ (lenB ++ (cntB ++ (ab ++ rest))) := by
    simpa using hd
  have hd1 := drop_shift_k hd0 (show lntMagic.length = 4 by decide)
  have hd2 := drop_shift_k hd1 hll
  have hd3 := drop_shift_k hd2 hcl
  have hloop := lntLoop_spec h2 hd3 hlen hres
  rw [hlen] at hloop
  simp only [read_lnt, readN_eq hd0 (show lntMagic.length = 4 by decide),
    eq_self_iff_true, if_true, readN_eq hd1 hll, unpackI_packI h3,
    readN_eq hd2 hcl, unpackQ_packQ h1, hloop]
  simp only [Res.ok.injEq, Prod.mk.injEq]
  refine ⟨trivial, ?_⟩
  rw [hblen]
  omega

/-! ### Header count lemmas -/

theorem countsOf_fold (lines : Table) (a b : Nat) :
    lines.foldl (fun acc line => (acc.1 + line.length, max line.length acc.2)) (a, b) =
      (a + sumLens lines, max b (maxLen lines)) := by
  induction lines generalizing a b with
  | nil => simp [sumLens, maxLen]
  | cons l t ih =>
      simp only [List.foldl_cons, ih, sumLens, maxLen, List.map_cons,
        List.sum_cons, List.foldr_cons]
      rw [Prod.mk.injEq]
      constructor
      · omega
      · omega

theorem countsOf_spec (lines : Table) :
    countsOf lines = (sumLens lines, maxLen lines) := by
  unfold countsOf
  rw [countsOf_fold]
  simp

theorem countedOf_fold (rows : Table) (a b : Nat) :
    rows.foldl (fun acc line => (acc.1 + line.length, max acc.2 line.length)) (a, b) =
      (a + sumLens rows, max b (maxLen rows)) := by
  induction rows generalizing a b with
  | nil => simp [sumLens, maxLen]
  | cons l t ih =>
      simp only [List.foldl_cons, ih, sumLens, maxLen, List.map_cons,
        List.sum_cons, List.foldr_cons]
      rw [Prod.mk.injEq]
      constructor
      · omega
      · omega

theorem countedOf_spec (rows : Table) :
    countedOf rows = (sumLens rows, maxLen rows) := by
  unfold countedOf
  rw [countedOf_fold]
  simp

/-! ### Deduplication lemmas -/

theorem foldl_append_eq (lines : Table) (acc : List Field) :
    lines.foldl (fun a l => a ++ l) acc = acc ++ lines.flatten := by
  induction lines generalizing acc with
  | nil => simp
  | cons l t ih => simp [List.foldl_cons, ih]

theorem allStrs_eq (lines : Table) : allStrs lines = lines.flatten := by
  unfold allStrs
  rw [foldl_append_eq]
  simp

theorem foldl_insertIfNew_mem {J : List Field} {acc : List Field} {x : Field}
    (h : x ∈ J.foldl insertIfNew acc) : x ∈ acc ∨ x ∈ J := by
  induction J generalizing acc with
  | nil => simp at h; exact Or.inl h
  | cons y ys ih =>
      simp only [List.foldl_cons] at h
      rcases ih h with h' | h'
      · unfold insertIfNew at h'
        split at h'
        · exact Or.inl h'
        · rcases List.mem_append.mp h' with h'' | h''
          · exact Or.inl h''
          · simp at h''; subst h''; exact Or.inr (by simp)
      · exact Or.inr (by simp [h'])

theorem get_unique_strs_subset {lines : Table} {u : Field}
    (h : u ∈ get_unique_strs lines) : u ∈ lines.flatten := by
  unfold get_unique_strs at h
  rw [allStrs_eq] at h
  rcases foldl_insertIfNew_mem h with h' | h'
  · simp at h'
  · exact h'

/-! ### Whole-stream lemmas -/

theorem orderBytes_length (bo : ByteOrder) : (orderBytes bo).length = 2 := by
  cases bo <;> rfl

theorem byteOrderOf_orderBytes (bo : ByteOrder) :
    byteOrderOf (orderBytes bo) = some bo := by
  cases bo <;> rfl

/-- Decomposition of a successful `write_csb`. -/
theorem write_csb_eq {lines : Table} {bo : ByteOrder} {s : List Nat}
    (hw : write_csb lines bo = some s) :
    ∃ tfB mcB tlB b1 sm b2 lm b3,
      packI bo (sumLens lines) = some tfB ∧
      packI bo (maxLen lines) = some mcB ∧
      packI bo lines.length = some tlB ∧
      write_strp bo lines 24 = some (b1, sm) ∧
      write_lnp bo lines sm (24 + b1.length) = some (b2, lm) ∧
      write_lnt bo lines lm = some b3 ∧
      s = (csbMagic ++ orderBytes bo ++ reservedBytes ++ tfB ++ mcB ++ tlB) ++
        (b1 ++ (b2 ++ b3)) := by
  unfold write_csb at hw
  simp only [countsOf_spec, Option.bind_eq_bind] at hw
  cases h1 : packI bo (sumLens lines) with
  | none => rw [h1] at hw; simp at hw
  | some tfB =>
      rw [h1] at hw
      simp only [Option.some_bind] at hw
      cases h2 : packI bo (maxLen lines) with
      | none => rw [h2] at hw; simp at hw
      | some mcB =>
          rw [h2] at hw
          simp only [Option.some_bind] at hw
          cases h3 : packI bo lines.length with
          | none => rw [h3] at hw; simp at hw
          | some tlB =>
              rw [h3] at hw
              simp only [Option.some_bind] at hw
              cases h4 : write_strp bo lines 24 with
              | none => rw [h4] at hw; simp at hw
              | some p1 =>
                  obtain ⟨b1, sm⟩ := p1
                  rw [h4] at hw
                  simp only [Option.some_bind] at hw
                  cases h5 : write_lnp bo lines sm (24 + b1.length) with
                  | none => rw [h5] at hw; simp at hw
                  | some p2 =>
                      obtain ⟨b2, lm⟩ := p2
                      rw [h5] at hw
                      simp only [Option.some_bind] at hw
                      cases h6 : write_lnt bo lines lm with
                      | none => rw [h6] at hw; simp at hw
                      | some b3 =>
                          rw [h6] at hw
                          simp only [Option.some_bind, Option.some.injEq] at hw
                          exact ⟨tfB, mcB, tlB, b1, sm, b2, lm, b3,
                            rfl, rfl, rfl, rfl, h5, h6, hw.symm⟩

/-- Reading back the three header counts of an encoded stream, whatever the
byte position expression is. -/
theorem read_counts_write {bo : ByteOrder} {s tfB mcB tlB rest : List Nat}
    {tf mc tl pos : Nat}
    (h1 : packI bo tf = some tfB) (h2 : packI bo mc = some mcB)
    (h3 : packI bo tl = some tlB)
    (hd : s.drop pos = tfB ++ (mcB ++ (tlB ++ rest))) :
    read_counts bo s pos = .ok (tf, mc, tl, pos + 12) := by
  have htfl := packI_length h1
  have hmcl := packI_length h2
  have htll := packI_length h3
  have hd1 := drop_shift_k hd htfl
  have hd2 := drop_shift_k hd1 hmcl
  simp only [read_counts, readN_eq hd htfl, unpackI_packI h1,
    readN_eq hd1 hmcl, unpackI_packI h2, readN_eq hd2 htll, unpackI_packI h3]

/-- Reading back a well-formed header, whatever follows the 24 header
bytes. -/
theorem read_header_of_hdr {bo : ByteOrder} {buf tfB mcB tlB rest : List Nat}
    {tf mc tl : Nat}
    (h1 : packI bo tf = some tfB) (h2 : packI bo mc = some mcB)
    (h3 : packI bo tl = some tlB)
    (hd0 : buf.drop 0 = csbMagic ++ (orderBytes bo ++ (reservedBytes ++
      (tfB ++ (mcB ++ (tlB ++ rest)))))) :
    read_header buf = .ok (bo, tf, mc, tl, 24) := by
  have hd1 := drop_shift_k hd0 (show csbMagic.length = 4 by decide)
  have hd2 := drop_shift_k hd1 (orderBytes_length bo)
  have hd3 := drop_shift_k hd2 (show reservedBytes.length = 6 by decide)
  have hcounts := read_counts_write h1 h2 h3 hd3
  simp only [read_header, readN_eq hd0 (show csbMagic.length = 4 by decide),
    eq_self_iff_true, if_true, readN_eq hd1 (orderBytes_length bo),
    byteOrderOf_orderBytes, readN_eq hd2 (show reservedBytes.length = 6 by decide),
    hcounts]

/-- Reading back the header of an encoded stream. -/
theorem read_header_write {lines : Table} {bo : ByteOrder} {s : List Nat}
    (hw : write_csb lines bo = some s) :
    read_header s = .ok (bo, sumLens lines, maxLen lines, lines.length, 24) := by
  obtain ⟨tfB, mcB, tlB, b1, sm, b2, lm, b3, h1, h2, h3, h4, h5, h6, hs⟩ :=
    write_csb_eq hw
  have hd0 : s.drop 0 = csbMagic ++ (orderBytes bo ++ (reservedBytes ++
      (tfB ++ (mcB ++ (tlB ++ (b1 ++ (b2 ++ b3))))))) := by
    rw [List.drop_zero, hs]
    simp [List.append_assoc]
  exact read_header_of_hdr h1 h2 h3 hd0

/-- Parsing an encoded stream of a NUL-free table recovers exactly the rows
and the recomputed header counts. -/
theorem parse_csb_write {lines : Table} {bo : ByteOrder} {s : List Nat}
    (hnf : NulFree lines) (hw : write_csb lines bo = some s) :
    parse_csb s = .ok (lines, sumLens lines, maxLen lines, lines.length) := by
  obtain ⟨tfB, mcB, tlB, b1, sm, b2, lm, b3, h1, h2, h3, h4, h5, h6, hs⟩ :=
    write_csb_eq hw
  have htfl := packI_length h1
  have hmcl := packI_length h2
  have htll := packI_length h3
  have hnul : ∀ u ∈ get_unique_strs lines, (0 : Nat) ∉ u := by
    intro u hu
    obtain ⟨l, hl, hul⟩ := List.mem_flatten.mp (get_unique_strs_subset hu)
    exact hnf l hl u hul
  have hd0 : s.drop 0 = csbMagic ++ (orderBytes bo ++ (reservedBytes ++
      (tfB ++ (mcB ++ (tlB ++ (b1 ++ (b2 ++ b3))))))) := by
    rw [List.drop_zero, hs]
    simp [List.append_assoc]
  have hd1 := drop_shift_k hd0 (show csbMagic.length = 4 by decide)
  have hd2 := drop_shift_k hd1 (orderBytes_length bo)
  have hd3 := drop_shift_k hd2 (show reservedBytes.length = 6 by decide)
  have hd4 := drop_shift_k hd3 htfl
  have hd5 := drop_shift_k hd4 hmcl
  have hd6 := drop_shift_k hd5 htll
  have hd6' : s.drop 24 = b1 ++ (b2 ++ b3) := by
    rw [show (24 : Nat) = 0 + 4 + 2 + 6 + 4 + 4 + 4 by omega]; exact hd6
  have hstrp := read_strp_write h4 hnul hd6'
  have hd7 : s.drop (24 + b1.length) = b2 ++ b3 := drop_shift hd6'
  have hsm : sm = (get_unique_strs lines).zip
      (strpAddrs (24 + 16) (get_unique_strs lines)) := by
    obtain ⟨cntB, lenB, _, _, _, hm⟩ := write_strp_eq h4
    exact hm
  have hreslnp : ∀ f ∈ lines.flatten, ∀ a, strLookup sm f = some a →
      dictGet? ((strpAddrs (24 + 16) (get_unique_strs lines)).zip
        (get_unique_strs lines)) a = some f := by
    intro f _ a ha
    rw [hsm] at ha
    exact dictGet?_zip_of_mem (strpAddrs_nodup _ _)
      (mem_zip_swap (strLookup_mem ha))
  have hlnp := read_lnp_write h5 hd7 hreslnp
  have hd8 : s.drop (24 + b1.length + b2.length) = b3 ++ [] := by
    rw [List.append_nil]
    exact drop_shift hd7
  have hlm : lm = recordStarts (24 + b1.length + 16) lines := by
    obtain ⟨cntB, body, lenB, _, hb, _, _⟩ := write_lnp_eq h5
    exact lnpBody_lm hb
  have hlmlen : lm.length = lines.length := by
    rw [hlm, recordStarts_length]
  have hlmnodup : lm.Nodup := by
    rw [hlm]; exact recordStarts_nodup _ _
  have hreslnt : ∀ p ∈ lm.zip lines, dictGet? (lm.zip lines) p.1 = some p.2 := by
    intro p hp
    obtain ⟨a, row⟩ := p
    exact dictGet?_zip_of_mem hlmnodup hp
  have hlnt := read_lnt_write h6 hd8 hlmlen hreslnt
  unfold parse_csb
  rw [read_header_write hw]
  simp only []
  rw [hstrp]
  simp only []
  rw [hlnp]
  simp only []
  rw [hlnt]

/-! ### Failure-path lemmas -/

theorem read_strp_badmagic {bo : ByteOrder} {buf m rest : List Nat} {pos : Nat}
    (hm4 : m.length = 4) (hm : m ≠ strpMagic) (hd : buf.drop pos = m ++ rest) :
    read_strp bo buf pos = .fail .INVALID_STRP_MAGIC := by
  unfold read_strp
  rw [readN_eq hd hm4]
  simp only [if_neg hm]

theorem read_lnp_badmagic {bo : ByteOrder} {buf m rest : List Nat} {pos : Nat}
    {strDict : List (Nat × Field)}
    (hm4 : m.length = 4) (hm : m ≠ lnpMagic) (hd : buf.drop pos = m ++ rest) :
    read_lnp bo buf pos strDict = .fail .INVALID_LNP_MAGIC := by
  unfold read_lnp
  rw [readN_eq hd hm4]
  simp only [if_neg hm]

theorem read_lnt_badmagic {bo : ByteOrder} {buf m rest : List Nat} {pos : Nat}
    {lineDict : List (Nat × Row)}
    (hm4 : m.length = 4) (hm : m ≠ lntMagic) (hd : buf.drop pos = m ++ rest) :
    read_lnt bo buf pos lineDict = .fail .INVALID_LNT_MAGIC := by
  unfold read_lnt
  rw [readN_eq hd hm4]
  simp only [if_neg hm]

theorem read_header_badmagic {buf m rest : List Nat}
    (hm4 : m.length = 4) (hm : m ≠ csbMagic) (hd : buf.drop 0 = m ++ rest) :
    read_header buf = .fail .INVALID_CSB_MAGIC := by
  unfold read_header
  rw [readN_eq hd hm4]
  simp only [if_neg hm]

theorem read_header_badorder {buf ob rest : List Nat}
    (hob : ob.length = 2) (h1 : ob ≠ [255, 254]) (h2 : ob ≠ [254, 255])
    (hd : buf.drop 0 = csbMagic ++ (ob ++ rest)) :
    read_header buf = .fail .INVALID_BYTE_ORDER := by
  have hd1 := drop_shift_k hd (show csbMagic.length = 4 by decide)
  have hbo : byteOrderOf ob = none := by
    unfold byteOrderOf
    rw [if_neg h1, if_neg h2]
  simp only [read_header, readN_eq hd (show csbMagic.length = 4 by decide),
    eq_self_iff_true, if_true, readN_eq hd1 hob, hbo]

theorem parse_csb_of_header_fail {buf : List Nat} {e : ReadError}
    (h : read_header buf = .fail e) : parse_csb buf = .fail e := by
  unfold parse_csb
  rw [h]

theorem parse_csb_of_strp_fail {buf : List Nat} {bo : ByteOrder}
    {tf mc tl p : Nat} {e : ReadError}
    (hh : read_header buf = .ok (bo, tf, mc, tl, p))
    (hs : read_strp bo buf p = .fail e) : parse_csb buf = .fail e := by
  unfold parse_csb
  rw [hh]
  simp only []
  rw [hs]

theorem parse_csb_of_lnp_fail {buf : List Nat} {bo : ByteOrder}
    {tf mc tl p p' : Nat} {e : ReadError} {sd : List (Nat × Field)}
    (hh : read_header buf = .ok (bo, tf, mc, tl, p))
    (hs : read_strp bo buf p = .ok (sd, p'))
    (hl : read_lnp bo buf p' sd = .fail e) : parse_csb buf = .fail e := by
  unfold parse_csb
  rw [hh]
  simp only []
  rw [hs]
  simp only []
  rw [hl]

theorem parse_csb_of_lnt_fail {buf : List Nat} {bo : ByteOrder}
    {tf mc tl p p' p'' : Nat} {e : ReadError} {sd : List (Nat × Field)}
    {ld : List (Nat × Row)}
    (hh : read_header buf = .ok (bo, tf, mc, tl, p))
    (hs : read_strp bo buf p = .ok (sd, p'))
    (hl : read_lnp bo buf p' sd = .ok (ld, p''))
    (ht : read_lnt bo buf p'' ld = .fail e) : parse_csb buf = .fail e := by
  unfold parse_csb
  rw [hh]
  simp only []
  rw [hs]
  simp only []
  rw [hl]
  simp only []
  rw [ht]

theorem read_csb_of_parse_fail {buf : List Nat} {e : ReadError} {v : Bool}
    (h : parse_csb buf = .fail e) : read_csb buf v = .fail e := by
  unfold read_csb
  rw [h]

theorem read_csb_false_of_parse {buf : List Nat} {rows : Table}
    {tf mc tl : Nat} (h : parse_csb buf = .ok (rows, tf, mc, tl)) :
    read_csb buf false = .ok rows := by
  unfold read_csb
  rw [h]
  rfl

theorem read_csb_true_of_parse {buf : List Nat} {rows : Table}
    {tf mc tl : Nat} (h : parse_csb buf = .ok (rows, tf, mc, tl)) :
    read_csb buf true =
      (match validate_result rows tf mc tl with
        | some e => .fail e
        | none => .ok rows) := by
  unfold read_csb
  rw [h]
  rfl

/-- A `read_strp` tagged failure can only be the STRP magic error. -/
theorem read_strp_fail {bo : ByteOrder} {buf : List Nat} {pos : Nat}
    {e : ReadError} (h : read_strp bo buf pos = .fail e) :
    e = .INVALID_STRP_MAGIC := by
  unfold read_strp at h
  split at h
  all_goals repeat any_goals split at h
  all_goals simp_all

theorem read_lnp_fail {bo : ByteOrder} {buf : List Nat} {pos : Nat}
    {strDict : List (Nat × Field)} {e : ReadError}
    (h : read_lnp bo buf pos strDict = .fail e) :
    e = .INVALID_LNP_MAGIC := by
  unfold read_lnp at h
  split at h
  all_goals repeat any_goals split at h
  all_goals simp_all

theorem read_lnt_fail {bo : ByteOrder} {buf : List Nat} {pos : Nat}
    {lineDict : List (Nat × Row)} {e : ReadError}
    (h : read_lnt bo buf pos lineDict = .fail e) :
    e = .INVALID_LNT_MAGIC := by
  unfold read_lnt at h
  split at h
  all_goals repeat any_goals split at h
  all_goals simp_all

theorem read_counts_fail {bo : ByteOrder} {buf : List Nat} {pos : Nat}
    {e : ReadError} (h : read_counts bo buf pos = .fail e) : False := by
  unfold read_counts at h
  repeat any_goals split at h
  all_goals simp_all

theorem read_header_fail {buf : List Nat} {e : ReadError}
    (h : read_header buf = .fail e) :
    e = .INVALID_CSB_MAGIC ∨ e = .INVALID_BYTE_ORDER := by
  unfold read_header at h
  repeat any_goals split at h
  all_goals try cases h
  all_goals
    first
      | exact Or.inl rfl
      | exact Or.inr rfl
      | exact (read_counts_fail (by assumption)).elim

/-- A tagged `parse_csb` failure is always one of the five structural
errors, never a consistency error. -/
theorem parse_csb_fail {buf : List Nat} {e : ReadError}
    (h : parse_csb buf = .fail e) :
    e = .INVALID_CSB_MAGIC ∨ e = .INVALID_BYTE_ORDER ∨
    e = .INVALID_STRP_MAGIC ∨ e = .INVALID_LNP_MAGIC ∨
    e = .INVALID_LNT_MAGIC := by
  unfold parse_csb at h
  repeat any_goals split at h
  all_goals try cases h
  all_goals
    first
      | (rcases read_header_fail (by assumption) with h' | h' <;> simp [h'])
      | simp [read_strp_fail (by assumption)]
      | simp [read_lnp_fail (by assumption)]
      | simp [read_lnt_fail (by assumption)]

/-! ### Total packing helpers (for concrete test streams) -/

/-- The byte list `struct.pack` would produce, as a total function. -/
def packBytes (w : Nat) (bo : ByteOrder) (n : Nat) : List Nat :=
  orient bo (natToBytesLE w n)

theorem packI_eq_packBytes {bo : ByteOrder} {n : Nat} (h : n < 2 ^ 32) :
    packI bo n = some (packBytes 4 bo n) := by
  unfold packI packBytes
  rw [if_pos h]

theorem packQ_eq_packBytes {bo : ByteOrder} {n : Nat} (h : n < 2 ^ 64) :
    packQ bo n = some (packBytes 8 bo n) := by
  unfold packQ packBytes
  rw [if_pos h]

theorem packBytes_length (w : Nat) (bo : ByteOrder) (n : Nat) :
    (packBytes w bo n).length = w := by
  unfold packBytes
  rw [orient_length, natToBytesLE_length]

theorem unpackI_packBytes {bo : ByteOrder} {n : Nat} (h : n < 2 ^ 32) :
    unpackI bo (packBytes 4 bo n) = some n :=
  unpackI_packI (packI_eq_packBytes h)

theorem unpackQ_packBytes {bo : ByteOrder} {n : Nat} (h : n < 2 ^ 64) :
    unpackQ bo (packBytes 8 bo n) = some n :=
  unpackQ_packQ (packQ_eq_packBytes h)

/-! ### Block sizes and stored payload addresses -/

/-- Byte length of the per-record part of the LineIndex block. -/
def lnpBodyLen : Table → Nat
  | [] => 0
  | l :: t => 16 + 8 * l.length + lnpBodyLen t

theorem lnpBody_len {bo : ByteOrder} {sm : List (Field × Nat)} {lines : Table}
    {pos : Nat} {body lm : List Nat}
    (hb : lnpBody bo sm pos lines = some (body, lm)) :
    body.length = lnpBodyLen lines := by
  induction lines generalizing pos body lm with
  | nil => unfold lnpBody at hb; cases hb; rfl
  | cons line t ih =>
      unfold lnpBody at hb
      simp only [Option.bind_eq_bind] at hb
      cases h1 : packQ bo line.length with
      | none => rw [h1] at hb; simp at hb
      | some cntB =>
          rw [h1] at hb
          simp only [Option.some_bind] at hb
          cases h2 : packQ bo (pos + 16) with
          | none => rw [h2] at hb; simp at hb
          | some addrB =>
              rw [h2] at hb
              simp only [Option.some_bind] at hb
              cases h3 : fieldsBytes bo sm line with
              | none => rw [h3] at hb; simp at hb
              | some fb =>
                  rw [h3] at hb
                  simp only [Option.some_bind] at hb
                  cases h4 : lnpBody bo sm (pos + 16 + 8 * line.length) t with
                  | none => rw [h4] at hb; simp at hb
                  | some p =>
                      obtain ⟨tb, tm⟩ := p
                      rw [h4] at hb
                      simp only [Option.some_bind, Option.some.injEq,
                        Prod.mk.injEq] at hb
                      rw [← hb.1]
                      have e1 := packQ_length h1
                      have e2 := packQ_length h2
                      have e3 := fieldsBytes_length h3
                      have e4 := ih h4
                      simp only [List.length_append, e1, e2, e3, e4, lnpBodyLen]

theorem write_strp_len {bo : ByteOrder} {lines : Table} {pos : Nat}
    {blk : List Nat} {m : List (Field × Nat)}
    (hw : write_strp bo lines pos = some (blk, m)) :
    blk.length = 16 + (cstrConcat (get_unique_strs lines)).length := by
  obtain ⟨cntB, lenB, hq, hI, hblk, _⟩ := write_strp_eq hw
  rw [hblk]
  simp [strpMagic, packQ_length hq, packI_length hI]
  omega

theorem write_lnp_len {bo : ByteOrder} {lines : Table} {sm : List (Field × Nat)}
    {pos : Nat} {blk lm : List Nat}
    (hw : write_lnp bo lines sm pos = some (blk, lm)) :
    blk.length = 16 + lnpBodyLen lines := by
  obtain ⟨cntB, body, lenB, h1, h2, h3, hblk⟩ := write_lnp_eq hw
  rw [hblk]
  simp [lnpMagic, packQ_length h1, packI_length h3, lnpBody_len h2]
  omega

/-- Every record's stored 8-byte payload address is the record's own start
address plus 16. -/
theorem lnpBody_payload {bo : ByteOrder} {sm : List (Field × Nat)}
    {lines : Table} {pos : Nat} {body lm : List Nat} {buf rest : List Nat}
    (hb : lnpBody bo sm pos lines = some (body, lm))
    (hd : buf.drop pos = body ++ rest) :
    ∀ r ∈ lm, unpackQ bo (slice buf (r + 8) 8) = some (r + 16) := by
  induction lines generalizing pos body lm rest with
  | nil =>
      unfold lnpBody at hb
      cases hb
      intro r hr
      simp at hr
  | cons line t ih =>
      unfold lnpBody at hb
      simp only [Option.bind_eq_bind] at hb
      cases h1 : packQ bo line.length with
      | none => rw [h1] at hb; simp at hb
      | some cntB =>
          rw [h1] at hb
          simp only [Option.some_bind] at hb
          cases h2 : packQ bo (pos + 16) with
          | none => rw [h2] at hb; simp at hb
          | some addrB =>
              rw [h2] at hb
              simp only [Option.some_bind] at hb
              cases h3 : fieldsBytes bo sm line with
              | none => rw [h3] at hb; simp at hb
              | some fb =>
                  rw [h3] at hb
                  simp only [Option.some_bind] at hb
                  cases h4 : lnpBody bo sm (pos + 16 + 8 * line.length) t with
                  | none => rw [h4] at hb; simp at hb
                  | some p =>
                      obtain ⟨tb, tm⟩ := p
                      rw [h4] at hb
                      simp only [Option.some_bind, Option.some.injEq,
                        Prod.mk.injEq] at hb
                      obtain ⟨hbody, hlm⟩ := hb
                      subst hbody
                      have hcl := packQ_length h1
                      have hal := packQ_length h2
                      have hfl := fieldsBytes_length h3
                      have hd0 : buf.drop pos =
                          cntB ++ (addrB ++ (fb ++ (tb ++ rest))) := by
                        simpa using hd
                      have hd1 := drop_shift_k hd0 hcl
                      have hd2' : buf.drop (pos + 16) = fb ++ (tb ++ rest) := by
                        rw [show pos + 16 = pos + 8 + 8 by omega]
                        exact drop_shift_k hd1 hal
                      have hd3 : buf.drop (pos + 16 + 8 * line.length) =
                          tb ++ rest := by
                        have h5 := drop_shift_k hd2' hfl
                        convert h5 using 2
                      intro r hr
                      rw [← hlm] at hr
                      rcases List.mem_cons.mp hr with rfl | hr'
                      · rw [slice_eq hd1 hal, unpackQ_packQ h2]
                      · exact ih h4 hd3 r hr'

/-! ### Concrete blocks for the dangling-address and indirection claims -/

/-- A one-record LineOrder block whose sole entry is the address `a`. -/
def lntSingle (bo : ByteOrder) (a : Nat) : List Nat :=
  lntMagic ++ packBytes 4 bo 24 ++ packBytes 8 bo 1 ++ packBytes 8 bo a

/-- `read_lnt` on a block whose entry is not a key of `line_map` raises the
uncaught `KeyError`, i.e. crashes — no tagged error is produced. -/
theorem read_lnt_dangling {bo : ByteOrder} {a : Nat}
    {lineDict : List (Nat × Row)} (ha : a < 2 ^ 64)
    (hnone : dictGet? lineDict a = none) :
    read_lnt bo (lntSingle bo a) 0 lineDict = .crash := by
  have hd0 : (lntSingle bo a).drop 0 = lntMagic ++ (packBytes 4 bo 24 ++
      (packBytes 8 bo 1 ++ (packBytes 8 bo a ++ []))) := by
    simp [lntSingle, List.append_assoc]
  have hd1 := drop_shift_k hd0 (show lntMagic.length = 4 by decide)
  have hd2 := drop_shift_k hd1 (packBytes_length 4 bo 24)
  have hd3 := drop_shift_k hd2 (packBytes_length 8 bo 1)
  simp only [read_lnt, readN_eq hd0 (show lntMagic.length = 4 by decide),
    eq_self_iff_true, if_true, readN_eq hd1 (packBytes_length 4 bo 24),
    unpackI_packBytes (show (24 : Nat) < 2 ^ 32 by norm_num),
    readN_eq hd2 (packBytes_length 8 bo 1),
    unpackQ_packBytes (show (1 : Nat) < 2 ^ 64 by norm_num)]
  simp only [lntLoop, readN_eq hd3 (packBytes_length 8 bo a),
    unpackQ_packBytes ha, hnone]

/-- A one-record LineIndex block (contiguous payload) whose sole field
address is `a`. -/
def lnpSingle (bo : ByteOrder) (a : Nat) : List Nat :=
  lnpMagic ++ packBytes 4 bo 40 ++ packBytes 8 bo 1 ++ packBytes 8 bo 1 ++
    packBytes 8 bo 32 ++ packBytes 8 bo a

set_option maxHeartbeats 2000000 in
/-- `read_lnp` on a record whose field address is not a key of the decoded
string pool raises the uncaught `KeyError`, i.e. crashes. -/
theorem read_lnp_dangling {bo : ByteOrder} {a : Nat}
    {strDict : List (Nat × Field)} (ha : a < 2 ^ 64)
    (hnone : dictGet? strDict a = none) :
    read_lnp bo (lnpSingle bo a) 0 strDict = .crash := by
  have hd0 : (lnpSingle bo a).drop 0 = lnpMagic ++ (packBytes 4 bo 40 ++
      (packBytes 8 bo 1 ++ (packBytes 8 bo 1 ++ (packBytes 8 bo 32 ++
        (packBytes 8 bo a ++ []))))) := by
    simp [lnpSingle, List.append_assoc]
  have hd1 := drop_shift_k hd0 (show lnpMagic.length = 4 by decide)
  have hd2 := drop_shift_k hd1 (packBytes_length 4 bo 40)
  have hd3 := drop_shift_k hd2 (packBytes_length 8 bo 1)
  have hd4 := drop_shift_k hd3 (packBytes_length 8 bo 1)
  have hd5 : (lnpSingle bo a).drop 32 = packBytes 8 bo a ++ [] := by
    have h5 := drop_shift_k hd4 (packBytes_length 8 bo 32)
    convert h5 using 2
  simp only [read_lnp, readN_eq hd0 (show lnpMagic.length = 4 by decide),
    eq_self_iff_true, if_true, readN_eq hd1 (packBytes_length 4 bo 40),
    unpackI_packBytes (show (40 : Nat) < 2 ^ 32 by norm_num),
    readN_eq hd2 (packBytes_length 8 bo 1),
    unpackQ_packBytes (show (1 : Nat) < 2 ^ 64 by norm_num)]
  simp only [lnpLoop, readN_eq hd3 (packBytes_length 8 bo 1),
    unpackQ_packBytes (show (1 : Nat) < 2 ^ 64 by norm_num),
    readN_eq hd4 (packBytes_length 8 bo 32),
    unpackQ_packBytes (show (32 : Nat) < 2 ^ 64 by norm_num)]
  simp only [readFields, readN_eq hd5 (packBytes_length 8 bo a),
    unpackQ_packBytes ha, hnone]

/-- A one-record LineIndex block whose declared payload address points past
`junk.length` interposed bytes: payload is NOT contiguous with the record
header. -/
def lnpNoncontig (bo : ByteOrder) (junk : List Nat) (a : Nat) : List Nat :=
  lnpMagic ++ packBytes 4 bo (40 + junk.length) ++ packBytes 8 bo 1 ++
    packBytes 8 bo 1 ++ packBytes 8 bo (32 + junk.length) ++ junk ++
    packBytes 8 bo a

set_option maxHeartbeats 2000000 in
/-- The reader honors the declared payload address: it seeks there and reads
the field list from that position, skipping the interposed bytes, whatever
they are. -/
theorem read_lnp_noncontig {bo : ByteOrder} {junk : List Nat} {a : Nat}
    {f : Field} {strDict : List (Nat × Field)}
    (ha : a < 2 ^ 64) (hj32 : 40 + junk.length < 2 ^ 32)
    (hres : dictGet? strDict a = some f) :
    read_lnp bo (lnpNoncontig bo junk a) 0 strDict =
      .ok ([(16, [f])], 40 + junk.length) := by
  have hj64 : 32 + junk.length < 2 ^ 64 := by
    have : (2 : Nat) ^ 32 < 2 ^ 64 := by norm_num
    omega
  have hd0 : (lnpNoncontig bo junk a).drop 0 = lnpMagic ++
      (packBytes 4 bo (40 + junk.length) ++ (packBytes 8 bo 1 ++
      (packBytes 8 bo 1 ++ (packBytes 8 bo (32 + junk.length) ++
      (junk ++ (packBytes 8 bo a ++ [])))))) := by
    simp [lnpNoncontig, List.append_assoc]
  have hd1 := drop_shift_k hd0 (show lnpMagic.length = 4 by decide)
  have hd2 := drop_shift_k hd1 (packBytes_length 4 bo (40 + junk.length))
  have hd3 := drop_shift_k hd2 (packBytes_length 8 bo 1)
  have hd4 := drop_shift_k hd3 (packBytes_length 8 bo 1)
  have hd5 := drop_shift_k hd4 (packBytes_length 8 bo (32 + junk.length))
  have hd6 : (lnpNoncontig bo junk a).drop (32 + junk.length) =
      packBytes 8 bo a ++ [] := by
    have h6 := drop_shift_k hd5 rfl
    convert h6 using 2
  simp only [read_lnp, readN_eq hd0 (show lnpMagic.length = 4 by decide),
    eq_self_iff_true, if_true,
    readN_eq hd1 (packBytes_length 4 bo (40 + junk.length)),
    unpackI_packBytes hj32, readN_eq hd2 (packBytes_length 8 bo 1),
    unpackQ_packBytes (show (1 : Nat) < 2 ^ 64 by norm_num)]
  simp only [lnpLoop, readN_eq hd3 (packBytes_length 8 bo 1),
    unpackQ_packBytes (show (1 : Nat) < 2 ^ 64 by norm_num),
    readN_eq hd4 (packBytes_length 8 bo (32 + junk.length)),
    unpackQ_packBytes hj64]
  simp only [readFields, readN_eq hd6 (packBytes_length 8 bo a),
    unpackQ_packBytes ha, hres]
  simp only [lnpLoop, dictInsert]
  simp only [Res.ok.injEq, Prod.mk.injEq]
  constructor
  · trivial
  · omega

/-! ### Declared block lengths (writer side) -/

theorem write_strp_declared {bo : ByteOrder} {lines : Table} {pos : Nat}
    {blk : List Nat} {m : List (Field × Nat)}
    (hw : write_strp bo lines pos = some (blk, m)) :
    unpackI bo (slice blk 4 4) = some blk.length := by
  obtain ⟨cntB, lenB, hq, hI, hblk, _⟩ := write_strp_eq hw
  have hlen := write_strp_len hw
  have hd0 : blk.drop 0 = strpMagic ++ (lenB ++ (cntB ++
      (cstrConcat (get_unique_strs lines) ++ []))) := by
    rw [List.drop_zero, hblk]
    simp [List.append_assoc]
  have hd1 := drop_shift_k hd0 (show strpMagic.length = 4 by decide)
  rw [show (0 : Nat) + 4 = 4 by omega] at hd1
  rw [slice_eq hd1 (packI_length hI), unpackI_packI hI, hlen]
  congr 1
  omega

theorem write_lnp_declared {bo : ByteOrder} {lines : Table}
    {sm : List (Field × Nat)} {pos : Nat} {blk lm : List Nat}
    (hw : write_lnp bo lines sm pos = some (blk, lm)) :
    unpackI bo (slice blk 4 4) = some blk.length := by
  obtain ⟨cntB, body, lenB, h1, h2, h3, hblk⟩ := write_lnp_eq hw
  have hlen := write_lnp_len hw
  have hbody := lnpBody_len h2
  have hd0 : blk.drop 0 = lnpMagic ++ (lenB ++ (cntB ++ (body ++ []))) := by
    rw [List.drop_zero, hblk]
    simp [List.append_assoc]
  have hd1 := drop_shift_k hd0 (show lnpMagic.length = 4 by decide)
  rw [show (0 : Nat) + 4 = 4 by omega] at hd1
  rw [slice_eq hd1 (packI_length h3), unpackI_packI h3, hlen]
  congr 1
  omega

theorem write_lnt_declared {bo : ByteOrder} {lines : Table} {lm blk : List Nat}
    (hw : write_lnt bo lines lm = some blk) :
    unpackI bo (slice blk 4 4) = some blk.length := by
  obtain ⟨cntB, ab, lenB, h1, h2, h3, hblk⟩ := write_lnt_eq hw
  have hd0 : blk.drop 0 = lntMagic ++ (lenB ++ (cntB ++ (ab ++ []))) := by
    rw [List.drop_zero, hblk]
    simp [List.append_assoc]
  have hd1 := drop_shift_k hd0 (show lntMagic.length = 4 by decide)
  rw [show (0 : Nat) + 4 = 4 by omega] at hd1
  rw [slice_eq hd1 (packI_length h3), unpackI_packI h3, hblk]
  have hcl := packQ_length h1
  have hll := packI_length h3
  simp [lntMagic, hcl, hll]
  omega

/-! ### Reader end positions: seek to block start + declared length -/

theorem read_strp_endpos {bo : ByteOrder} {buf : List Nat} {pos : Nat}
    {d : List (Nat × Field)} {q : Nat}
    (h : read_strp bo buf pos = .ok (d, q)) :
    ∃ bl, unpackI bo (slice buf (pos + 4) 4) = some bl ∧ q = pos + bl := by
  unfold read_strp at h
  split at h
  next cb p1 heq1 =>
    unfold readN at heq1
    cases heq1
    split at h
    · next hm =>
        have hlen : ((buf.drop pos).take 4).length = 4 := by
          rw [hm]
          decide
        rw [hlen] at h
        split at h
        next lb p2 heq2 =>
          unfold readN at heq2
          cases heq2
          split at h
          · exact absurd h (by simp)
          · next bl heq3 =>
              refine ⟨bl, heq3, ?_⟩
              repeat any_goals split at h
              all_goals simp_all
    · exact absurd h (by simp)

theorem read_lnp_endpos {bo : ByteOrder} {buf : List Nat} {pos : Nat}
    {sd : List (Nat × Field)} {d : List (Nat × Row)} {q : Nat}
    (h : read_lnp bo buf pos sd = .ok (d, q)) :
    ∃ bl, unpackI bo (slice buf (pos + 4) 4) = some bl ∧ q = pos + bl := by
  unfold read_lnp at h
  split at h
  next cb p1 heq1 =>
    unfold readN at heq1
    cases heq1
    split at h
    · next hm =>
        have hlen : ((buf.drop pos).take 4).length = 4 := by
          rw [hm]
          decide
        rw [hlen] at h
        split at h
        next lb p2 heq2 =>
          unfold readN at heq2
          cases heq2
          split at h
          · exact absurd h (by simp)
          · next bl heq3 =>
              refine ⟨bl, heq3, ?_⟩
              repeat any_goals split at h
              all_goals simp_all
    · exact absurd h (by simp)

theorem read_lnt_endpos {bo : ByteOrder} {buf : List Nat} {pos : Nat}
    {ld : List (Nat × Row)} {t : Table} {q : Nat}
    (h : read_lnt bo buf pos ld = .ok (t, q)) :
    ∃ bl, unpackI bo (slice buf (pos + 4) 4) = some bl ∧ q = pos + bl := by
  unfold read_lnt at h
  split at h
  next cb p1 heq1 =>
    unfold readN at heq1
    cases heq1
    split at h
    · next hm =>
        have hlen : ((buf.drop pos).take 4).length = 4 := by
          rw [hm]
          decide
        rw [hlen] at h
        split at h
        next lb p2 heq2 =>
          unfold readN at heq2
          cases heq2
          split at h
          · exact absurd h (by simp)
          · next bl heq3 =>
              refine ⟨bl, heq3, ?_⟩
              repeat any_goals split at h
              all_goals simp_all
    · exact absurd h (by simp)

/-! ### Header count bytes in the encoded stream -/

theorem write_csb_counts {lines : Table} {bo : ByteOrder} {s : List Nat}
    (hw : write_csb lines bo = some s) :
    unpackI bo (slice s 12 4) = some (sumLens lines) ∧
    unpackI bo (slice s 16 4) = some (maxLen lines) ∧
    unpackI bo (slice s 20 4) = some lines.length := by
  obtain ⟨tfB, mcB, tlB, b1, sm, b2, lm, b3, h1, h2, h3, h4, h5, h6, hs⟩ :=
    write_csb_eq hw
  have htfl := packI_length h1
  have hmcl := packI_length h2
  have htll := packI_length h3
  have hd0 : s.drop 0 = csbMagic ++ (orderBytes bo ++ (reservedBytes ++
      (tfB ++ (mcB ++ (tlB ++ (b1 ++ (b2 ++ b3))))))) := by
    rw [List.drop_zero, hs]
    simp [List.append_assoc]
  have hd1 := drop_shift_k hd0 (show csbMagic.length = 4 by decide)
  have hd2 := drop_shift_k hd1 (orderBytes_length bo)
  have hd3 := drop_shift_k hd2 (show reservedBytes.length = 6 by decide)
  have hd3' : s.drop 12 = tfB ++ (mcB ++ (tlB ++ (b1 ++ (b2 ++ b3)))) := by
    rw [show (12 : Nat) = 0 + 4 + 2 + 6 by omega]
    exact hd3
  have hd4 : s.drop 16 = mcB ++ (tlB ++ (b1 ++ (b2 ++ b3))) := by
    rw [show (16 : Nat) = 12 + 4 by omega]
    exact drop_shift_k hd3' htfl
  have hd5 : s.drop 20 = tlB ++ (b1 ++ (b2 ++ b3)) := by
    rw [show (20 : Nat) = 16 + 4 by omega]
    exact drop_shift_k hd4 hmcl
  exact ⟨by rw [slice_eq hd3' htfl, unpackI_packI h1],
    by rw [slice_eq hd4 hmcl, unpackI_packI h2],
    by rw [slice_eq hd5 htll, unpackI_packI h3]⟩

/-! ### First-occurrence dedup: order and uniqueness -/

theorem firstDedup_mem {J : List Field} {x : Field} :
    x ∈ firstDedup J ↔ x ∈ J := by
  induction J with
  | nil => simp [firstDedup]
  | cons y ys ih =>
      by_cases hxy : x = y
      · subst hxy
        simp [firstDedup]
      · simp only [firstDedup, List.mem_cons, List.mem_filter,
          decide_eq_true_eq, ih]
        constructor
        · rintro (rfl | ⟨h, _⟩)
          · exact Or.inl rfl
          · exact Or.inr h
        · rintro (rfl | h)
          · exact Or.inl rfl
          · exact Or.inr ⟨h, by simpa using hxy⟩

theorem firstDedup_nodup (J : List Field) : (firstDedup J).Nodup := by
  induction J with
  | nil => exact List.nodup_nil
  | cons y ys ih =>
      refine List.nodup_cons.mpr ⟨?_, ih.filter _⟩
      intro hmem
      have := (List.mem_filter.mp hmem).2
      simp at this

theorem foldl_insertIfNew_eq (J : List Field) (acc : List Field) :
    J.foldl insertIfNew acc =
      acc ++ (firstDedup J).filter (fun y => decide (y ∉ acc)) := by
  induction J generalizing acc with
  | nil => simp [firstDedup]
  | cons x xs ih =>
      simp only [List.foldl_cons, ih, firstDedup]
      unfold insertIfNew
      by_cases hx : x ∈ acc
      · rw [if_pos hx]
        simp only [List.filter_cons, decide_eq_true_eq]
        rw [if_neg (by simpa using hx)]
        congr 1
        rw [List.filter_filter]
        apply List.filter_congr
        intro y _
        by_cases hy : y ∈ acc
        · simp [hy]
        · have : y ≠ x := fun h => hy (h ▸ hx)
          simp [hy, this]
      · rw [if_neg hx]
        simp only [List.filter_cons, decide_eq_true_eq]
        rw [if_pos (by simpa using hx)]
        rw [List.append_assoc, List.singleton_append]
        congr 1
        congr 1
        rw [List.filter_filter]
        apply List.filter_congr
        intro y _
        by_cases hy : y ∈ acc
        · simp [hy]
        · by_cases hyx : y = x
          · subst hyx
            simp [hy]
          · simp [hy, hyx]

theorem get_unique_strs_eq (lines : Table) :
    get_unique_strs lines = firstDedup lines.flatten := by
  unfold get_unique_strs
  rw [allStrs_eq, foldl_insertIfNew_eq]
  simp only [List.nil_append]
  apply List.filter_eq_self.mpr
  intro a _
  simp

theorem get_unique_strs_nodup (lines : Table) :
    (get_unique_strs lines).Nodup := by
  rw [get_unique_strs_eq]
  exact firstDedup_nodup _

theorem get_unique_strs_mem {lines : Table} {u : Field} :
    u ∈ get_unique_strs lines ↔ u ∈ lines.flatten := by
  rw [get_unique_strs_eq]
  exact firstDedup_mem

theorem countP_eq_one_of_nodup {l : List Field} {u : Field}
    (hn : l.Nodup) (hm : u ∈ l) :
    l.countP (fun v => decide (v = u)) = 1 := by
  induction l with
  | nil => simp at hm
  | cons x t ih =>
      rw [List.countP_cons]
      obtain ⟨hx, hnt⟩ := List.nodup_cons.mp hn
      by_cases he : u = x
      · subst he
        have hz : t.countP (fun v => decide (v = u)) = 0 :=
          List.countP_eq_zero.mpr fun a ha => by
            simp only [decide_eq_true_eq]
            rintro rfl
            exact hx ha
        simp [hz]
      · rcases List.mem_cons.mp hm with rfl | hm'
        · exact absurd rfl he
        · have hxf : ¬(x = u) := fun h => he h.symm
          simp [ih hnt hm', hxf]

/-- Each distinct field value is stored exactly once in the pool list. -/
theorem get_unique_strs_count (lines : Table) (u : Field) :
    (get_unique_strs lines).countP (fun v => decide (v = u)) =
      if u ∈ lines.flatten then 1 else 0 := by
  by_cases hu : u ∈ lines.flatten
  · rw [if_pos hu]
    exact countP_eq_one_of_nodup (get_unique_strs_nodup lines)
      (get_unique_strs_mem.mpr hu)
  · rw [if_neg hu]
    refine List.countP_eq_zero.mpr fun a ha => ?_
    simp only [decide_eq_true_eq]
    rintro rfl
    exact hu (get_unique_strs_mem.mp ha)

/-- Round trip: decoding (with validation) an encoded NUL-free table yields
back exactly the original rows. -/
theorem read_csb_write {lines : Table} {bo : ByteOrder} {s : List Nat}
    (hnf : NulFree lines) (hw : write_csb lines bo = some s) :
    read_csb s true = .ok lines := by
  unfold read_csb
  rw [parse_csb_write hnf hw]
  simp [validate_result, countedOf_spec]

/-! ### Concrete examples used by the claim witnesses and counterexamples -/

/-- The table `[["a", "b"], ["a"]]`, fields as UTF-8 bytes. -/
def exTable : Table := [[[97], [98]], [[97]]]

/-- Its little-endian encoding. -/
def exStream : List Nat := (write_csb exTable .le).getD []

/-- A table whose single field is the NUL character. -/
def exNulTable : Table := [[[0]]]

/-- Its little-endian encoding. -/
def exNulStream : List Nat := (write_csb exNulTable .le).getD []

/-- The table `[["a"]]`. -/
def ex1Table : Table := [[[97]]]

/-- Its little-endian encoding (106 bytes; LineIndex record at offset 58,
its stored payload address at 66, its field list at 74; LineOrder entry at
offset 98). -/
def ex1Stream : List Nat := (write_csb ex1Table .le).getD []

/-- The table `[["a\x00b", "c"]]`: one row, first field contains a NUL. -/
def exMixTable : Table := [[[97, 0, 98], [99]]]

/-- Its little-endian encoding (118 bytes; LineOrder block at offset 94). -/
def exMixStream : List Nat := (write_csb exMixTable .le).getD []

/-- Replace the bytes of `s` at `[i, i + m.length)` by `m`. -/
def spliceAt (s : List Nat) (i : Nat) (m : List Nat) : List Nat :=
  s.take i ++ m ++ s.drop (i + m.length)

/-- `exStream` with its header counts tampered to
`total_fields = 99`, `max_columns = 99`, `total_lines = 2`: the line count
is right, the other two counts are both wrong. -/
def exC2Stream : List Nat :=
  exStream.take 12 ++ packBytes 4 .le 99 ++ packBytes 4 .le 99 ++
    packBytes 4 .le 2 ++ exStream.drop 24

/-- `exStream` with only `total_lines` tampered from 2 to 3. -/
def exC9Stream : List Nat :=
  exStream.take 20 ++ packBytes 4 .le 3 ++ exStream.drop 24

/-- `ex1Stream` with its only LineOrder entry (at offset 98) replaced by
the address 59, which is not a key of the decoded LineIndex map. -/
def exC4Stream : List Nat :=
  ex1Stream.take 98 ++ packBytes 8 .le 59 ++ ex1Stream.drop 106

/-- Byte size of the STRP block the writer emits for a table. -/
def strpSizeOf (lines : Table) : Nat :=
  16 + (cstrConcat (get_unique_strs lines)).length

/-- Absolute offset of the LineIndex block in an encoded stream. -/
def lnpOffsetOf (lines : Table) : Nat := 24 + strpSizeOf lines

/-- Absolute offset of the LineOrder block in an encoded stream. -/
def lntOffsetOf (lines : Table) : Nat := lnpOffsetOf lines + (16 + lnpBodyLen lines)

/-! ### Claim C1 -/

/-- C1, counterexample: the claim quantifies over every table, but a field
containing the NUL byte is silently truncated by the C-string round trip:
`[["\x00"]]` encodes successfully and decodes (validation passing) to
`[[""]]`, not to the original table. -/
theorem c1_nul_field_breaks_roundtrip :
    write_csb exNulTable .le = some exNulStream ∧
    read_csb exNulStream true = .ok [[[]]] ∧
    ([[[]]] : Table) ≠ exNulTable := by
  refine ⟨by decide, by decide, by decide⟩

/-- C1 (amended to NUL-free tables): for every table whose fields contain
no NUL byte and either byte order, whenever encoding succeeds, decoding the
produced stream with validation enabled succeeds and returns exactly the
original rows, in content and order. -/
theorem c1_roundtrip (lines : Table) (bo : ByteOrder) (s : List Nat)
    (hnf : NulFree lines) (hw : write_csb lines bo = some s) :
    read_csb s true = .ok lines :=
  read_csb_write hnf hw

/-- C1, witness at the concrete table `[["a", "b"], ["a"]]`. -/
theorem c1_roundtrip_witness :
    NulFree exTable ∧ write_csb exTable .le = some exStream ∧
    read_csb exStream true = .ok exTable :=
  ⟨by decide, by decide, c1_roundtrip exTable .le exStream (by decide) (by decide)⟩

/-! ### Claim C2 -/

/-- C2, counterexample: a stream whose line count is right but whose
max-columns and total-fields counts are both wrong decodes (with
validation) to `InconsistentTotalFields`, not `InconsistentMaxColumns` as
the claim requires: the source checks `total_fields` before `max_columns`. -/
theorem c2_fields_checked_before_columns :
    parse_csb exC2Stream = .ok (exTable, 99, 99, 2) ∧
    read_csb exC2Stream true = .fail .INCONSISTENT_TOTAL_FIELDS ∧
    ReadError.INCONSISTENT_TOTAL_FIELDS ≠ ReadError.INCONSISTENT_MAX_COLUMNS := by
  refine ⟨by decide, by decide, by decide⟩

/-- C2 (amended): the validation checks run in the order
`InconsistentTotalLines`, then `InconsistentTotalFields`, then
`InconsistentMaxColumns`, short-circuiting; hence every parseable stream
whose line count is right but whose total-fields and max-columns counts are
both wrong fails with `InconsistentTotalFields`. -/
theorem c2_check_order (s : List Nat) (rows : Table) (tf mc tl : Nat)
    (hp : parse_csb s = .ok (rows, tf, mc, tl))
    (hl : tl = rows.length) (hf : tf ≠ sumLens rows) (hc : mc ≠ maxLen rows) :
    read_csb s true = .fail .INCONSISTENT_TOTAL_FIELDS := by
  rw [read_csb_true_of_parse hp]
  unfold validate_result
  rw [countedOf_spec]
  rw [if_neg (by omega)]
  rw [if_pos (by simpa using fun h => hf h.symm)]

/-- C2, witness at the concrete tampered stream. -/
theorem c2_check_order_witness :
    parse_csb exC2Stream = .ok (exTable, 99, 99, 2) ∧
    read_csb exC2Stream true = .fail .INCONSISTENT_TOTAL_FIELDS :=
  ⟨by decide, c2_check_order exC2Stream exTable 99 99 2 (by decide) (by decide)
    (by decide) (by decide)⟩

/-! ### Claim C4 -/

/-- C4, counterexample: replacing the LineOrder entry of the encoding of
`[["a"]]` with an address (59) that is not a key of the LineIndex map makes
decode raise an uncaught `KeyError` (modelled `Res.crash`): no tagged error
is returned, contrary to the claim. -/
theorem c4_dangling_address_crashes :
    read_csb exC4Stream true = .crash ∧
    (∀ e : ReadError, read_csb exC4Stream true ≠ .fail e) := by
  have h : read_csb exC4Stream true = .crash := by decide
  exact ⟨h, fun e he => by rw [h] at he; exact Res.noConfusion he⟩

/-- C4 (amended): a LineOrder entry absent from the LineIndex map, or a
LineIndex field address absent from the decoded StringPool, makes the
reader crash with an uncaught `KeyError` — no table and no tagged error. -/
theorem c4_dangling_address_is_keyerror :
    (∀ (bo : ByteOrder) (a : Nat) (lineDict : List (Nat × Row)),
      a < 2 ^ 64 → dictGet? lineDict a = none →
      read_lnt bo (lntSingle bo a) 0 lineDict = .crash) ∧
    (∀ (bo : ByteOrder) (a : Nat) (strDict : List (Nat × Field)),
      a < 2 ^ 64 → dictGet? strDict a = none →
      read_lnp bo (lnpSingle bo a) 0 strDict = .crash) :=
  ⟨fun _ _ _ ha hn => read_lnt_dangling ha hn,
   fun _ _ _ ha hn => read_lnp_dangling ha hn⟩

/-- C4, witness at concrete dangling addresses. -/
theorem c4_dangling_witness :
    read_lnt .le (lntSingle .le 59) 0 [(58, [[97]])] = .crash ∧
    read_lnp .le (lnpSingle .le 41) 0 [(40, [97])] = .crash :=
  ⟨c4_dangling_address_is_keyerror.1 .le 59 [(58, [[97]])] (by norm_num)
    (by decide),
   c4_dangling_address_is_keyerror.2 .le 41 [(40, [97])] (by norm_num)
    (by decide)⟩

/-! ### Claim C7 -/

/-- C7: the header counts written by the encoder equal the values
recomputed from the table: `total_fields` is the sum of the row lengths,
`max_columns` the maximum row length (0 for an empty table), `total_lines`
the row count. -/
theorem c7_header_counts (lines : Table) (bo : ByteOrder) (s : List Nat)
    (hw : write_csb lines bo = some s) :
    unpackI bo (slice s 12 4) = some (sumLens lines) ∧
    unpackI bo (slice s 16 4) = some (maxLen lines) ∧
    unpackI bo (slice s 20 4) = some lines.length :=
  write_csb_counts hw

/-- C7, witness at the concrete table `[["a", "b"], ["a"]]`. -/
theorem c7_header_counts_witness :
    write_csb exTable .le = some exStream ∧
    unpackI .le (slice exStream 12 4) = some (sumLens exTable) ∧
    unpackI .le (slice exStream 16 4) = some (maxLen exTable) ∧
    unpackI .le (slice exStream 20 4) = some exTable.length := by
  have h := c7_header_counts exTable .le exStream (by decide)
  exact ⟨by decide, h.1, h.2.1, h.2.2⟩

/-! ### Claim C3 -/

/-- The writer's string→address map for `ex1Table`'s pool. -/
def exSm : List (Field × Nat) := [([97], 40)]

/-- The LineIndex block and `line_map` for `ex1Table` at position 42. -/
def exLnpPair : List Nat × List Nat :=
  (write_lnp .le ex1Table exSm 42).getD ([], [])

/-- C3, counterexample: in the encoding of `[["a"]]`, the LineOrder entry
(at offset 98) stores 58 — the offset of the record's field-count field —
while the record's field-address list begins at 74 (the declared payload
address, bytes 66–74, and indeed byte 74 holds the pool address 40); the
reader likewise keys the decoded row at 58.  So records are identified by
the header start, not by the field-address-list start as the claim says. -/
theorem c3_identity_is_header_start :
    write_csb ex1Table .le = some ex1Stream ∧
    unpackQ .le (slice ex1Stream 98 8) = some 58 ∧
    unpackQ .le (slice ex1Stream 66 8) = some 74 ∧
    unpackQ .le (slice ex1Stream 74 8) = some 40 ∧
    read_lnp .le ex1Stream 42 [(40, [97])] = .ok ([(58, [[97]])], 82) ∧
    (58 : Nat) ≠ 74 := by
  refine ⟨by decide, by decide, by decide, by decide, by decide, by decide⟩

/-- C3 (amended): every LineIndex record is identified — as the writer's
`line_map` entry that LineOrder references, and as the key under which the
reader stores the decoded row — by the absolute offset at which the
record's own header (its field-count field) starts; the field-address list
begins 16 bytes later. -/
theorem c3_record_identity (bo : ByteOrder) (lines : Table)
    (sm : List (Field × Nat)) (pos : Nat) (blk lm : List Nat)
    (hw : write_lnp bo lines sm pos = some (blk, lm)) :
    lm = recordStarts (pos + 16) lines ∧
    ∀ (buf rest : List Nat) (strDict : List (Nat × Field)),
      buf.drop pos = blk ++ rest →
      (∀ f ∈ lines.flatten, ∀ a, strLookup sm f = some a →
        dictGet? strDict a = some f) →
      read_lnp bo buf pos strDict = .ok (lm.zip lines, pos + blk.length) := by
  constructor
  · obtain ⟨cntB, body, lenB, h1, h2, h3, hblk⟩ := write_lnp_eq hw
    exact lnpBody_lm h2
  · intro buf rest strDict hd hres
    exact read_lnp_write hw hd hres

/-- C3, witness at the concrete table `[["a"]]`. -/
theorem c3_record_identity_witness :
    write_lnp .le ex1Table exSm 42 = some exLnpPair ∧
    exLnpPair.2 = recordStarts 58 ex1Table ∧
    read_lnp .le ex1Stream 42 [(40, [97])] =
      .ok (exLnpPair.2.zip ex1Table, 42 + exLnpPair.1.length) := by
  have h := c3_record_identity .le ex1Table exSm 42 exLnpPair.1 exLnpPair.2
    (by decide)
  refine ⟨by decide, ?_, ?_⟩
  · exact h.1
  · refine h.2 ex1Stream (ex1Stream.drop 82) [(40, [97])] (by decide) ?_
    intro f hf a ha
    have hf97 : f = [97] := by simpa [ex1Table] using hf
    subst hf97
    have ha40 : some 40 = some a := by simpa [exSm, strLookup] using ha
    cases ha40
    decide

/-! ### Claim C5 -/

/-- The STRP block and string map for `exTable` at position 24. -/
def exStrpPair : List Nat × List (Field × Nat) :=
  (write_strp .le exTable 24).getD ([], [])

/-- C5: the pool list is the table's fields deduplicated keeping first
occurrences in order (left-to-right, top-to-bottom), each distinct value
appearing exactly once; and the emitted STRP block stores exactly that list
in that order, its map keyed by exactly those strings. -/
theorem c5_pool_dedup (lines : Table) :
    get_unique_strs lines = firstDedup lines.flatten ∧
    (∀ u : Field, (get_unique_strs lines).countP (fun v => decide (v = u)) =
      if u ∈ lines.flatten then 1 else 0) ∧
    ∀ (bo : ByteOrder) (pos : Nat) (blk : List Nat) (m : List (Field × Nat)),
      write_strp bo lines pos = some (blk, m) →
      blk.drop 16 = cstrConcat (get_unique_strs lines) ∧
      m.map Prod.fst = get_unique_strs lines := by
  refine ⟨get_unique_strs_eq lines, get_unique_strs_count lines, ?_⟩
  intro bo pos blk m hw
  obtain ⟨cntB, lenB, hq, hI, hblk, hm⟩ := write_strp_eq hw
  constructor
  · rw [hblk]
    have hpre : (strpMagic ++ lenB ++ cntB).length = 16 := by
      simp [strpMagic, packI_length hI, packQ_length hq]
    rw [List.append_assoc strpMagic lenB cntB] at hpre ⊢
    exact List.drop_left' hpre
  · rw [hm]
    exact List.map_fst_zip _ _ (by rw [strpAddrs_length])

/-- C5, witness at the concrete table `[["a", "b"], ["a"]]`. -/
theorem c5_pool_dedup_witness :
    get_unique_strs exTable = firstDedup exTable.flatten ∧
    write_strp .le exTable 24 = some exStrpPair ∧
    exStrpPair.1.drop 16 = cstrConcat (get_unique_strs exTable) ∧
    exStrpPair.2.map Prod.fst = get_unique_strs exTable := by
  have h := (c5_pool_dedup exTable).2.2 .le 24 exStrpPair.1 exStrpPair.2
    (by decide)
  exact ⟨(c5_pool_dedup exTable).1, by decide, h.1, h.2⟩

/-! ### Claim C6 -/

/-- C6: in every emitted LineIndex record the stored 8-byte payload address
equals the record's own start address plus 16; and the reader seeks to the
declared payload address before reading the field addresses — a record
whose declared address points past interposed junk bytes is still resolved
from the declared position. -/
theorem c6_payload_address :
    (∀ (bo : ByteOrder) (lines : Table) (sm : List (Field × Nat))
      (pos : Nat) (blk lm : List Nat) (buf rest : List Nat),
      write_lnp bo lines sm pos = some (blk, lm) →
      buf.drop pos = blk ++ rest →
      ∀ r ∈ lm, unpackQ bo (slice buf (r + 8) 8) = some (r + 16)) ∧
    (∀ (bo : ByteOrder) (junk : List Nat) (a : Nat) (f : Field)
      (strDict : List (Nat × Field)),
      a < 2 ^ 64 → 40 + junk.length < 2 ^ 32 →
      dictGet? strDict a = some f →
      read_lnp bo (lnpNoncontig bo junk a) 0 strDict =
        .ok ([(16, [f])], 40 + junk.length)) := by
  constructor
  · intro bo lines sm pos blk lm buf rest hw hd
    obtain ⟨cntB, body, lenB, h1, h2, h3, hblk⟩ := write_lnp_eq hw
    have hd0 : buf.drop pos = lnpMagic ++ (lenB ++ (cntB ++ (body ++ rest))) := by
      rw [hd, hblk]
      simp [List.append_assoc]
    have hd1 := drop_shift_k hd0 (show lnpMagic.length = 4 by decide)
    have hd2 := drop_shift_k hd1 (packI_length h3)
    have hd3 := drop_shift_k hd2 (packQ_length h1)
    have hd3' : buf.drop (pos + 16) = body ++ rest := by
      rw [show pos + 16 = pos + 4 + 4 + 8 by omega]
      exact hd3
    exact lnpBody_payload h2 hd3'
  · intro bo junk a f strDict ha hj hres
    exact read_lnp_noncontig ha hj hres

/-- C6, witness: the concrete record of `ex1Stream` (start 58, stored
payload address 74 = 58 + 16), and a non-contiguous block with three junk
bytes whose field list is still found at the declared address. -/
theorem c6_payload_address_witness :
    unpackQ .le (slice ex1Stream 66 8) = some 74 ∧
    read_lnp .le (lnpNoncontig .le [7, 7, 7] 100) 0 [(100, [97])] =
      .ok ([(16, [[97]])], 43) := by
  constructor
  · have h := c6_payload_address.1 .le ex1Table exSm 42 exLnpPair.1
      exLnpPair.2 ex1Stream (ex1Stream.drop 82) (by decide) (by decide)
      58 (by decide)
    exact h
  · have h := c6_payload_address.2 .le [7, 7, 7] 100 [97] [(100, [97])]
      (by norm_num) (by norm_num) (by decide)
    exact h

/-! ### Claim C9 -/

/-- C9: for every parseable stream whose header counts disagree with the
decoded rows, validation-enabled decode fails with a matching
`Inconsistent*` error while validation-disabled decode returns exactly the
decoded rows; the three consistency errors can only arise when validation
is requested; and validation never alters a successfully decoded table. -/
theorem c9_validation_toggle :
    (∀ (s : List Nat) (rows : Table) (tf mc tl : Nat),
      parse_csb s = .ok (rows, tf, mc, tl) →
      ¬(tl = rows.length ∧ tf = sumLens rows ∧ mc = maxLen rows) →
      read_csb s false = .ok rows ∧
      ∃ e, read_csb s true = .fail e ∧
        (e = .INCONSISTENT_TOTAL_LINES ∨ e = .INCONSISTENT_TOTAL_FIELDS ∨
          e = .INCONSISTENT_MAX_COLUMNS) ∧
        (e = .INCONSISTENT_TOTAL_LINES → tl ≠ rows.length) ∧
        (e = .INCONSISTENT_TOTAL_FIELDS → tf ≠ sumLens rows) ∧
        (e = .INCONSISTENT_MAX_COLUMNS → mc ≠ maxLen rows)) ∧
    (∀ (s : List Nat) (e : ReadError), read_csb s false = .fail e →
      e ≠ .INCONSISTENT_TOTAL_LINES ∧ e ≠ .INCONSISTENT_MAX_COLUMNS ∧
      e ≠ .INCONSISTENT_TOTAL_FIELDS) ∧
    (∀ (s : List Nat) (rows : Table), read_csb s true = .ok rows →
      read_csb s false = .ok rows) := by
  refine ⟨?_, ?_, ?_⟩
  · intro s rows tf mc tl hp hbad
    refine ⟨read_csb_false_of_parse hp, ?_⟩
    rw [read_csb_true_of_parse hp]
    unfold validate_result
    rw [countedOf_spec]
    by_cases h1 : rows.length ≠ tl
    · rw [if_pos h1]
      exact ⟨.INCONSISTENT_TOTAL_LINES, rfl, Or.inl rfl,
        fun _ => by omega, fun h => absurd h (by decide),
        fun h => absurd h (by decide)⟩
    · rw [if_neg h1]
      by_cases h2 : (sumLens rows, maxLen rows).1 ≠ tf
      · rw [if_pos h2]
        exact ⟨.INCONSISTENT_TOTAL_FIELDS, rfl, Or.inr (Or.inl rfl),
          fun h => absurd h (by decide), fun _ => by simp at h2; omega,
          fun h => absurd h (by decide)⟩
      · rw [if_neg h2]
        by_cases h3 : (sumLens rows, maxLen rows).2 ≠ mc
        · rw [if_pos h3]
          exact ⟨.INCONSISTENT_MAX_COLUMNS, rfl, Or.inr (Or.inr rfl),
            fun h => absurd h (by decide), fun h => absurd h (by decide),
            fun _ => by simp at h3; omega⟩
        · exact absurd ⟨by omega, by simp at h2; omega, by simp at h3; omega⟩
            hbad
  · intro s e h
    unfold read_csb at h
    split at h
    · exact absurd h (by simp)
    · next e' heq =>
        cases h
        rcases parse_csb_fail heq with h' | h' | h' | h' | h' <;> subst h' <;>
          exact ⟨by decide, by decide, by decide⟩
    · simp at h
  · intro s rows h
    unfold read_csb at h ⊢
    split at h
    · exact absurd h (by simp)
    · exact absurd h (by simp)
    · next a heq =>
        rw [if_pos rfl] at h
        rw [if_neg (by simp)]
        split at h
        · exact absurd h (by simp)
        · exact h

/-- C9, witness: `exStream` with `total_lines` tampered from 2 to 3
validates to `InconsistentTotalLines` yet decodes untouched without
validation. -/
theorem c9_validation_toggle_witness :
    read_csb exC9Stream false = .ok exTable ∧
    read_csb exC9Stream true = .fail .INCONSISTENT_TOTAL_LINES := by
  have h := c9_validation_toggle.1 exC9Stream exTable 3 2 3 (by decide)
    (by decide)
  exact ⟨h.1, by decide⟩

/-! ### Claim C10 -/

/-- C10: each emitted block's 4-byte length field equals the full block
size in bytes (magic and length field included); and each reader's trailing
seek lands at the block's start plus that declared length, i.e. exactly at
the first byte after the block. -/
theorem c10_block_lengths :
    (∀ (bo : ByteOrder) (lines : Table) (pos : Nat) (blk : List Nat)
      (m : List (Field × Nat)), write_strp bo lines pos = some (blk, m) →
      unpackI bo (slice blk 4 4) = some blk.length) ∧
    (∀ (bo : ByteOrder) (lines : Table) (sm : List (Field × Nat)) (pos : Nat)
      (blk lm : List Nat), write_lnp bo lines sm pos = some (blk, lm) →
      unpackI bo (slice blk 4 4) = some blk.length) ∧
    (∀ (bo : ByteOrder) (lines : Table) (lm blk : List Nat),
      write_lnt bo lines lm = some blk →
      unpackI bo (slice blk 4 4) = some blk.length) ∧
    (∀ (bo : ByteOrder) (buf : List Nat) (pos : Nat)
      (d : List (Nat × Field)) (q : Nat), read_strp bo buf pos = .ok (d, q) →
      ∃ bl, unpackI bo (slice buf (pos + 4) 4) = some bl ∧ q = pos + bl) ∧
    (∀ (bo : ByteOrder) (buf : List Nat) (pos : Nat)
      (sd : List (Nat × Field)) (d : List (Nat × Row)) (q : Nat),
      read_lnp bo buf pos sd = .ok (d, q) →
      ∃ bl, unpackI bo (slice buf (pos + 4) 4) = some bl ∧ q = pos + bl) ∧
    (∀ (bo : ByteOrder) (buf : List Nat) (pos : Nat)
      (ld : List (Nat × Row)) (t : Table) (q : Nat),
      read_lnt bo buf pos ld = .ok (t, q) →
      ∃ bl, unpackI bo (slice buf (pos + 4) 4) = some bl ∧ q = pos + bl) := by
  exact ⟨fun _ _ _ _ _ hw => write_strp_declared hw,
    fun _ _ _ _ _ _ hw => write_lnp_declared hw,
    fun _ _ _ _ hw => write_lnt_declared hw,
    fun _ _ _ _ _ h => read_strp_endpos h,
    fun _ _ _ _ _ _ h => read_lnp_endpos h,
    fun _ _ _ _ _ _ h => read_lnt_endpos h⟩

/-- C10, witness: the STRP block of `exTable` declares length 20 = its full
size, and reading it from `exStream` at offset 24 ends at 24 + 20 = 44. -/
theorem c10_block_lengths_witness :
    unpackI .le (slice exStrpPair.1 4 4) = some exStrpPair.1.length ∧
    unpackI .le (slice exStream 28 4) = some 20 ∧ (44 : Nat) = 24 + 20 := by
  refine ⟨c10_block_lengths.1 .le exTable 24 exStrpPair.1 exStrpPair.2
    (by decide), ?_, by norm_num⟩
  obtain ⟨bl, h1, h2⟩ := c10_block_lengths.2.2.2.1 .le exStream 24
    [(40, [97]), (42, [98])] 44 (by decide)
  have hbl : bl = 20 := by omega
  rw [hbl] at h1
  exact h1

/-! ### Claim C8 -/

/-- C8, counterexample: the claim quantifies over every well-formed
encoding, but for the table `[["a\x00b", "c"]]` (whose first field contains
a NUL) the decoder crashes with an uncaught `KeyError` inside the LineIndex
pass before ever reaching the LineOrder block, so corrupting the `LNT `
magic (at offset 94) does not produce `InvalidLineOrderMagic`. -/
theorem c8_nul_field_masks_magic_error :
    write_csb exMixTable .le = some exMixStream ∧
    slice exMixStream 94 4 = lntMagic ∧
    read_csb (spliceAt exMixStream 94 [88, 88, 88, 88]) true = .crash ∧
    (Res.crash : Res Table) ≠ .fail .INVALID_LNT_MAGIC := by
  refine ⟨by decide, by decide, by decide, by decide⟩

/-- C8 (amended to NUL-free tables): corrupting exactly one of the four
block magic tags of an encoded stream makes decode fail with the
corresponding `Invalid*Magic` error and no table, and corrupting the
2-byte order marker to anything other than the two sentinels yields
`InvalidByteOrder` — with or without validation. -/
theorem c8_magic_corruption (lines : Table) (bo : ByteOrder) (s : List Nat)
    (hnf : NulFree lines) (hw : write_csb lines bo = some s) :
    (∀ m : List Nat, m.length = 4 → m ≠ csbMagic → ∀ v,
      read_csb (spliceAt s 0 m) v = .fail .INVALID_CSB_MAGIC) ∧
    (∀ ob : List Nat, ob.length = 2 → ob ≠ [255, 254] → ob ≠ [254, 255] →
      ∀ v, read_csb (spliceAt s 4 ob) v = .fail .INVALID_BYTE_ORDER) ∧
    (∀ m : List Nat, m.length = 4 → m ≠ strpMagic → ∀ v,
      read_csb (spliceAt s 24 m) v = .fail .INVALID_STRP_MAGIC) ∧
    (∀ m : List Nat, m.length = 4 → m ≠ lnpMagic → ∀ v,
      read_csb (spliceAt s (lnpOffsetOf lines) m) v =
        .fail .INVALID_LNP_MAGIC) ∧
    (∀ m : List Nat, m.length = 4 → m ≠ lntMagic → ∀ v,
      read_csb (spliceAt s (lntOffsetOf lines) m) v =
        .fail .INVALID_LNT_MAGIC) := by
  obtain ⟨tfB, mcB, tlB, b1, sm, b2, lm, b3, h1, h2, h3, h4, h5, h6, hs⟩ :=
    write_csb_eq hw
  have e1 := packI_length h1
  have e2 := packI_length h2
  have e3 := packI_length h3
  have hdrlen : (csbMagic ++ orderBytes bo ++ reservedBytes ++ tfB ++ mcB ++
      tlB).length = 24 := by
    simp [List.length_append, csbMagic, reservedBytes, orderBytes_length,
      e1, e2, e3]
  have hb1len : b1.length = strpSizeOf lines := write_strp_len h4
  have hb2len : b2.length = 16 + lnpBodyLen lines := write_lnp_len h5
  have hnul : ∀ u ∈ get_unique_strs lines, (0 : Nat) ∉ u := by
    intro u hu
    obtain ⟨l, hl, hul⟩ := List.mem_flatten.mp (get_unique_strs_subset hu)
    exact hnf l hl u hul
  have hsm : sm = (get_unique_strs lines).zip
      (strpAddrs (24 + 16) (get_unique_strs lines)) := by
    obtain ⟨cntB, lenB, hq', hI', hblk', hm'⟩ := write_strp_eq h4
    exact hm'
  have hreslnp : ∀ f ∈ lines.flatten, ∀ a, strLookup sm f = some a →
      dictGet? ((strpAddrs (24 + 16) (get_unique_strs lines)).zip
        (get_unique_strs lines)) a = some f := by
    intro f _ a ha
    rw [hsm] at ha
    exact dictGet?_zip_of_mem (strpAddrs_nodup _ _)
      (mem_zip_swap (strLookup_mem ha))
  refine ⟨?_, ?_, ?_, ?_, ?_⟩
  · intro m hm4 hmne v
    have hd : (spliceAt s 0 m).drop 0 = m ++ s.drop (0 + m.length) := by
      unfold spliceAt
      simp
    exact read_csb_of_parse_fail
      (parse_csb_of_header_fail (read_header_badmagic hm4 hmne hd))
  · intro ob hob ho1 ho2 v
    have htake : s.take 4 = csbMagic := by
      rw [hs, show csbMagic ++ orderBytes bo ++ reservedBytes ++ tfB ++ mcB ++
        tlB ++ (b1 ++ (b2 ++ b3)) = csbMagic ++ (orderBytes bo ++
        (reservedBytes ++ (tfB ++ (mcB ++ (tlB ++ (b1 ++ (b2 ++ b3)))))))
        from by simp [List.append_assoc]]
      exact List.take_left' (by decide)
    have hd : (spliceAt s 4 ob).drop 0 =
        csbMagic ++ (ob ++ s.drop (4 + ob.length)) := by
      unfold spliceAt
      rw [List.drop_zero, htake]
      simp [List.append_assoc]
    exact read_csb_of_parse_fail
      (parse_csb_of_header_fail (read_header_badorder hob ho1 ho2 hd))
  · intro m hm4 hmne v
    have htake : s.take 24 = csbMagic ++ orderBytes bo ++ reservedBytes ++
        tfB ++ mcB ++ tlB := by
      rw [hs]
      exact List.take_left' hdrlen
    have hsplit : spliceAt s 24 m = (csbMagic ++ orderBytes bo ++
        reservedBytes ++ tfB ++ mcB ++ tlB) ++
        (m ++ s.drop (24 + m.length)) := by
      unfold spliceAt
      rw [htake]
      simp [List.append_assoc]
    have hd0 : (spliceAt s 24 m).drop 0 = csbMagic ++ (orderBytes bo ++
        (reservedBytes ++ (tfB ++ (mcB ++ (tlB ++
          (m ++ s.drop (24 + m.length))))))) := by
      rw [List.drop_zero, hsplit]
      simp [List.append_assoc]
    have hh := read_header_of_hdr h1 h2 h3 hd0
    have hd24 : (spliceAt s 24 m).drop 24 = m ++ s.drop (24 + m.length) := by
      rw [hsplit]
      exact List.drop_left' hdrlen
    exact read_csb_of_parse_fail
      (parse_csb_of_strp_fail hh (read_strp_badmagic hm4 hmne hd24))
  · intro m hm4 hmne v
    have hqlen : (csbMagic ++ orderBytes bo ++ reservedBytes ++ tfB ++ mcB ++
        tlB ++ b1).length = lnpOffsetOf lines := by
      simp only [List.length_append]
      simp only [List.length_append] at hdrlen
      unfold lnpOffsetOf
      rw [← hb1len]
      omega
    have htake : s.take (lnpOffsetOf lines) = csbMagic ++ orderBytes bo ++
        reservedBytes ++ tfB ++ mcB ++ tlB ++ b1 := by
      rw [hs, show csbMagic ++ orderBytes bo ++ reservedBytes ++ tfB ++ mcB ++
        tlB ++ (b1 ++ (b2 ++ b3)) = (csbMagic ++ orderBytes bo ++
        reservedBytes ++ tfB ++ mcB ++ tlB ++ b1) ++ (b2 ++ b3)
        from by simp [List.append_assoc]]
      exact List.take_left' hqlen
    have hsplit : spliceAt s (lnpOffsetOf lines) m = (csbMagic ++
        orderBytes bo ++ reservedBytes ++ tfB ++ mcB ++ tlB) ++ (b1 ++
        (m ++ s.drop (lnpOffsetOf lines + m.length))) := by
      unfold spliceAt
      rw [htake]
      simp [List.append_assoc]
    have hd0 : (spliceAt s (lnpOffsetOf lines) m).drop 0 = csbMagic ++
        (orderBytes bo ++ (reservedBytes ++ (tfB ++ (mcB ++ (tlB ++ (b1 ++
          (m ++ s.drop (lnpOffsetOf lines + m.length)))))))) := by
      rw [List.drop_zero, hsplit]
      simp [List.append_assoc]
    have hh := read_header_of_hdr h1 h2 h3 hd0
    have hd24 : (spliceAt s (lnpOffsetOf lines) m).drop 24 = b1 ++
        (m ++ s.drop (lnpOffsetOf lines + m.length)) := by
      rw [hsplit]
      exact List.drop_left' hdrlen
    have hstrp := read_strp_write h4 hnul hd24
    have hdq : (spliceAt s (lnpOffsetOf lines) m).drop (24 + b1.length) =
        m ++ s.drop (lnpOffsetOf lines + m.length) := drop_shift hd24
    exact read_csb_of_parse_fail (parse_csb_of_lnp_fail hh hstrp
      (read_lnp_badmagic hm4 hmne hdq))
  · intro m hm4 hmne v
    have hqlen : (csbMagic ++ orderBytes bo ++ reservedBytes ++ tfB ++ mcB ++
        tlB ++ b1 ++ b2).length = lntOffsetOf lines := by
      simp only [List.length_append]
      simp only [List.length_append] at hdrlen
      unfold lntOffsetOf lnpOffsetOf
      rw [← hb1len]
      omega
    have htake : s.take (lntOffsetOf lines) = csbMagic ++ orderBytes bo ++
        reservedBytes ++ tfB ++ mcB ++ tlB ++ b1 ++ b2 := by
      rw [hs, show csbMagic ++ orderBytes bo ++ reservedBytes ++ tfB ++ mcB ++
        tlB ++ (b1 ++ (b2 ++ b3)) = (csbMagic ++ orderBytes bo ++
        reservedBytes ++ tfB ++ mcB ++ tlB ++ b1 ++ b2) ++ b3
        from by simp [List.append_assoc]]
      exact List.take_left' hqlen
    have hsplit : spliceAt s (lntOffsetOf lines) m = (csbMagic ++
        orderBytes bo ++ reservedBytes ++ tfB ++ mcB ++ tlB) ++ (b1 ++ (b2 ++
        (m ++ s.drop (lntOffsetOf lines + m.length)))) := by
      unfold spliceAt
      rw [htake]
      simp [List.append_assoc]
    have hd0 : (spliceAt s (lntOffsetOf lines) m).drop 0 = csbMagic ++
        (orderBytes bo ++ (reservedBytes ++ (tfB ++ (mcB ++ (tlB ++ (b1 ++
          (b2 ++ (m ++ s.drop (lntOffsetOf lines + m.length))))))))) := by
      rw [List.drop_zero, hsplit]
      simp [List.append_assoc]
    have hh := read_header_of_hdr h1 h2 h3 hd0
    have hd24 : (spliceAt s (lntOffsetOf lines) m).drop 24 = b1 ++ (b2 ++
        (m ++ s.drop (lntOffsetOf lines + m.length))) := by
      rw [hsplit]
      exact List.drop_left' hdrlen
    have hstrp := read_strp_write h4 hnul hd24
    have hdq1 : (spliceAt s (lntOffsetOf lines) m).drop (24 + b1.length) =
        b2 ++ (m ++ s.drop (lntOffsetOf lines + m.length)) := drop_shift hd24
    have hlnp := read_lnp_write h5 hdq1 hreslnp
    have hdq2 : (spliceAt s (lntOffsetOf lines) m).drop
        (24 + b1.length + b2.length) =
        m ++ s.drop (lntOffsetOf lines + m.length) := drop_shift hdq1
    exact read_csb_of_parse_fail (parse_csb_of_lnt_fail hh hstrp hlnp
      (read_lnt_badmagic hm4 hmne hdq2))

/-- C8, witness: the four magic corruptions and an order-marker corruption
of the encoding of `[["a", "b"], ["a"]]`. -/
theorem c8_magic_corruption_witness :
    read_csb (spliceAt exStream 0 [88, 88, 88, 88]) true =
      .fail .INVALID_CSB_MAGIC ∧
    read_csb (spliceAt exStream 4 [1, 2]) true = .fail .INVALID_BYTE_ORDER ∧
    read_csb (spliceAt exStream 24 [88, 88, 88, 88]) true =
      .fail .INVALID_STRP_MAGIC ∧
    read_csb (spliceAt exStream (lnpOffsetOf exTable) [88, 88, 88, 88]) true =
      .fail .INVALID_LNP_MAGIC ∧
    read_csb (spliceAt exStream (lntOffsetOf exTable) [88, 88, 88, 88]) true =
      .fail .INVALID_LNT_MAGIC := by
  have h := c8_magic_corruption exTable .le exStream (by decide) (by decide)
  exact ⟨h.1 [88, 88, 88, 88] (by decide) (by decide) true,
    h.2.1 [1, 2] (by decide) (by decide) (by decide) true,
    h.2.2.1 [88, 88, 88, 88] (by decide) (by decide) true,
    h.2.2.2.1 [88, 88, 88, 88] (by decide) (by decide) true,
    h.2.2.2.2 [88, 88, 88, 88] (by decide) (by decide) true⟩

end Csb
